import Mathlib

/-!
# Verification of the SSTables LSM storage engine

A shallow embedding of the core of the `SSTables` repository (a typed
log-structured-merge key-value store), with theorems settling the spec's
claims about it. Source files embedded here:

* `src/memtable/table.rs` — the WAL-backed memtable (`insert`, `delete`,
  `build_from`);
* `src/memtable/log_reader.rs` — WAL replay (`next_op`);
* `src/sstable/table.rs` — SSTable build (`create`) and point lookup (`get`);
* `src/compaction/mod.rs` — the k-way merge compactor (`compact`);
* `src/engine/mod.rs` — the engine (`get`, `compact`, `flush_if_ready`,
  `get_next_index_storage_logs_name`).

Keys are byte strings (`List Nat`), compared byte-lexicographically exactly as
Rust compares `String`s. Machine integers that matter (index offsets) are
modelled as `Nat` with explicit `% 256` byte splitting.
-/

deriving instance DecidableEq for Except

namespace SSTables

/-- Keys are byte strings; Rust orders `String`s lexicographically over their
UTF-8 bytes. -/
abbrev Key := List Nat

/-- Byte-lexicographic strict order on keys (Rust's `Ord` for `String`/`&str`
and `[u8]`). -/
def keyLt : Key → Key → Bool
  | [], [] => false
  | [], _ :: _ => true
  | _ :: _, [] => false
  | a :: as, b :: bs => decide (a < b) || (decide (a = b) && keyLt as bs)

/-! ## Memtable (`src/memtable/table.rs`)

The `RBTree<String, Option<T>>` is modelled as an association list with at most
one entry per key; every source mutation is `tree.remove(&key)` followed by
`tree.insert(key, v)`, i.e. an upsert. A record of payload type `α` is a pair
`(key, payload)` (`MemTableRecord::get_key` is the first projection). -/

/-- The in-memory ordered map `key → Option<Record>`; `none` is a tombstone. -/
abbrev MemMap (α : Type) := List (Key × Option α)

/-- `tree.remove(&key)`: drop the entry for `key`, if any. -/
def mapRemove (m : MemMap α) (k : Key) : MemMap α :=
  m.filter (fun e => !decide (e.1 = k))

/-- `tree.insert(key, v)` right after a `remove`: the upsert both source
mutation sites perform. -/
def mapUpsert (m : MemMap α) (k : Key) (v : Option α) : MemMap α :=
  (k, v) :: mapRemove m k

/-- `tree.get(&key)`: `none` = absent, `some none` = tombstone,
`some (some r)` = live record. -/
def mapGet (m : MemMap α) (k : Key) : Option (Option α) :=
  (m.find? (fun e => decide (e.1 = k))).map (·.2)

/-- An operation as appended to the write-ahead log
(`src/memtable/operation.rs`): `Insert{record}` or `Delete{key}`. -/
inductive LogOperation (α : Type) where
  | insert (record : Key × α)
  | delete (key : Key)
deriving DecidableEq

/-- Opaque I/O error payload for a failing WAL append. -/
abbrev IOErr := Nat

/-- Memtable state: the ordered map plus the operations durably on the WAL. -/
structure MemState (α : Type) where
  map : MemMap α
  wal : List (LogOperation α)
deriving DecidableEq

/-- `MemTable::insert` (src/memtable/table.rs:66-77): `self.log.append(Insert
{record})?` first — a failing append (`appendErr = some e`) returns through `?`
before the tree is touched — then `tree.remove(&key)`; `tree.insert(key,
Some(record))`. -/
def memInsert (appendErr : Option IOErr) (st : MemState α) (r : Key × α) :
    Option IOErr × MemState α :=
  match appendErr with
  | some e => (some e, st)
  | none =>
    let st := { st with wal := st.wal ++ [LogOperation.insert r] }
    (none, { st with map := mapUpsert st.map r.1 (some r.2) })

/-- `MemTable::delete` (src/memtable/table.rs:79-89): `tree.remove(&key)`;
`tree.insert(key, None)`; and only then `self.log.append(Delete{key})?` — the
tree is mutated before the append, so a failing append (`appendErr = some e`)
propagates with the tombstone already in the map. -/
def memDelete (appendErr : Option IOErr) (st : MemState α) (k : Key) :
    Option IOErr × MemState α :=
  let st := { st with map := mapUpsert st.map k none }
  match appendErr with
  | some e => (some e, st)
  | none => (none, { st with wal := st.wal ++ [LogOperation.delete k] })

/-! ## Engine read path (`Engine::get`, src/engine/mod.rs:105-122)

An SSTable is consumed by the engine through its three-valued lookup:
`none` = "not in this table", `some none` = tombstone, `some (some r)` = live. -/

/-- The three-valued point-lookup interface of one SSTable as `Engine::get`
consumes it. -/
abbrev TableFn (α : Type) := Key → Option (Option α)

/-- The `for table in tables.iter().rev()` walk of `Engine::get`: the first
table returning `Some(lookup)` decides; an exhausted walk returns absent.
(The caller passes the list already reversed, i.e. newest first.) -/
def walkTables (tables : List (TableFn α)) (k : Key) : Option α :=
  match tables with
  | [] => none
  | t :: rest =>
    match t k with
    | some value => value
    | none => walkTables rest k

/-- `Engine::get` (src/engine/mod.rs:105-122): consult the memtable; a hit
(`Some(value)`) returns `value` directly (so a memtable tombstone returns
absent); otherwise walk the SSTable list newest-first. -/
def engineGet (mem : TableFn α) (tables : List (TableFn α)) (k : Key) :
    Option α :=
  match mem k with
  | some value => value
  | none => walkTables tables.reverse k

/-! ## Flush (`Engine::flush_if_ready`, src/engine/mod.rs:172-207)

The reader-visible engine state is the memtable map, the manifest (metadata
file) contents, and the in-memory SSTable list; `Engine::get` reads only the
first and the last. A flushed SSTable is modelled by the memtable snapshot it
was built from (its lookup returns exactly the snapshot's entries). -/

structure EngineState (α : Type) where
  memtable : MemMap α
  manifest : List (MemMap α)
  sstables : List (MemMap α)
deriving DecidableEq

/-- What `Engine::get` observes in a given engine state. -/
def visibleGet (s : EngineState α) (k : Key) : Option α :=
  engineGet (mapGet s.memtable) (s.sstables.map mapGet) k

/-- `Engine::flush_if_ready` as the sequence of reader-visible states after
each step, in source order: return unchanged if
`pair_size * memtable.len() < threshold`; otherwise build the SSTable from the
memtable snapshot (no visible change), `add_sstable_to_metadata(&table)`,
`self.memtable.clear()`, and only then `tables.push(table)` on the in-memory
list. -/
def flushTrace (pairSize threshold : Nat) (s : EngineState α) :
    List (EngineState α) :=
  if pairSize * s.memtable.length < threshold then [s]
  else
    let t := s.memtable
    let s1 := { s with manifest := s.manifest ++ [t] }
    let s2 := { s1 with memtable := [] }
    let s3 := { s2 with sstables := s2.sstables ++ [t] }
    [s, s1, s2, s3]

/-! ## File naming (`src/engine/mod.rs:253-264` and the compaction call) -/

/-- A database file destination: the subdirectory of `db_path` plus the file
name. -/
structure DbFilePath where
  dir : String
  file : String
deriving DecidableEq

/-- `Engine::get_next_index_storage_logs_name` (src/engine/mod.rs:253-264):
builds `storage/<TypeName>-<N>.log` and `indices/<TypeName>-<N>.log` and
returns the pair `(index_path, storage_path)`. -/
def getNextIndexStorageLogsName (typeName : String) (n : Nat) :
    DbFilePath × DbFilePath :=
  let storage_path : DbFilePath :=
    ⟨"storage", typeName ++ "-" ++ toString n ++ ".log"⟩
  let index_path : DbFilePath :=
    ⟨"indices", typeName ++ "-" ++ toString n ++ ".log"⟩
  (index_path, storage_path)

/-- Where `compact` (src/compaction/mod.rs:51-168) persists its two temp
files, as a function of its two path parameters, in signature order
`(new_storage_path, new_index_path)`: `storage_file.persist(&new_storage_path)`
and `index_file.persist(&new_index_path)`. Returns (destination of the storage
file, destination of the index file). -/
def compactPersistDests (new_storage_path new_index_path : DbFilePath) :
    DbFilePath × DbFilePath :=
  (new_storage_path, new_index_path)

/-- The compaction path plumbing of `Engine::compact` (src/engine/mod.rs:
147-157): `let (new_index_path, new_storage_path) =
self.get_next_index_storage_logs_name();` and then the positional call
`compact(target_tables, serializer, config, new_index_path,
new_storage_path)`. Returns (destination of the storage file, destination of
the index file). -/
def engineCompactFileDests (typeName : String) (n : Nat) :
    DbFilePath × DbFilePath :=
  let (new_index_path, new_storage_path) :=
    getNextIndexStorageLogsName typeName n
  compactPersistDests new_index_path new_storage_path

/-- The flush path plumbing of `Engine::flush_if_ready` (src/engine/mod.rs:
189-198): `let (index_path, storage_path) =
self.get_next_index_storage_logs_name();` and then `SSTable::create(
&storage_path, &index_path, ...)`, whose parameters are in signature order
`(storage_path, index_path)` and which creates the storage file at the former
and the index file at the latter. Returns (destination of the storage file,
destination of the index file). -/
def engineFlushFileDests (typeName : String) (n : Nat) :
    DbFilePath × DbFilePath :=
  let (index_path, storage_path) := getNextIndexStorageLogsName typeName n
  (storage_path, index_path)

/-! ## SSTable on-disk model (`src/sstable/table.rs`)

The storage file and the index file are byte lists. The record-level codec is
external (`SerializationEngine`, spec §6), so the builder takes an encoder
`enc : Option α → List Nat` and the lookup a decoder
`dec : List Nat → Option (Option α)`. -/

/-- The `K`-byte index key slot written for a key: the key truncated to at
most `K` bytes then right-padded with NUL (`let mut key_bytes = vec![0u8; K];
let len = truncated.len().min(K); key_bytes[..len].copy_from_slice(
&truncated[..len])`). -/
def padSlot (K : Nat) (key : Key) : List Nat :=
  key.take K ++ List.replicate (K - key.length) 0

/-- `offset.to_le_bytes()` for the `u64` offset: its 8 little-endian bytes. -/
def u64LeBytes (n : Nat) : List Nat :=
  [n % 256, n / 256 % 256, n / 256 ^ 2 % 256, n / 256 ^ 3 % 256,
   n / 256 ^ 4 % 256, n / 256 ^ 5 % 256, n / 256 ^ 6 % 256, n / 256 ^ 7 % 256]

/-- The index file written by `SSTable::create` (src/sstable/table.rs:77-89)
and, with the same loop, by `compact` (src/compaction/mod.rs:145-153): for
each recorded `(key, offset)` pair, the `K`-byte key slot followed by
`offset.to_le_bytes()` — always the 8 bytes of the `u64`; the configured
`index_offset_size` is not consulted when writing. -/
def indexFileBytes (K : Nat) (entries : List (Key × Nat)) : List Nat :=
  (entries.map (fun e => padSlot K e.1 ++ u64LeBytes e.2)).flatten

/-- An SSTable as built on disk plus its in-memory descriptor fields
(src/sstable/table.rs:23-30): `size` is the storage byte length and `count`
the number of entries. -/
structure SSTableModel (α : Type) where
  storage : List Nat
  index : List Nat
  min : Key
  max : Key
  size : Nat
  count : Nat
deriving DecidableEq

/-- The storage-file write loop of `SSTable::create`: stream each encoded
`Option<Record>` payload in key order, recording `(key, writer offset)` just
before each write. Returns the storage bytes and the recorded index pairs. -/
def buildStorage (enc : Option α → List Nat)
    (entries : List (Key × Option α)) : List Nat × List (Key × Nat) :=
  entries.foldl
    (fun acc e => (acc.1 ++ enc e.2, acc.2 ++ [(e.1, acc.1.length)]))
    ([], [])

/-- `SSTable::create` (src/sstable/table.rs:32-100), success path, over the
sorted memtable snapshot `entries` (the `RBTree` iterates in ascending key
order): stream the payloads recording offsets, then write the index;
`min`/`max` are the first/last snapshot keys, `count` the entry count,
`size` the final storage length. -/
def sstableCreate (enc : Option α → List Nat) (K : Nat)
    (entries : List (Key × Option α)) : SSTableModel α :=
  let sp := buildStorage enc entries
  { storage := sp.1
    index := indexFileBytes K sp.2
    min := (entries.head?.map (·.1)).getD []
    max := (entries.getLast?.map (·.1)).getD []
    size := sp.1.length
    count := entries.length }

/-- The `SSTable::get` errors reachable in the model
(src/sstable/error.rs): `DBFileCorrupted`, plus a marker for the `unwrap` /
`expect` panics in `load_record` and the offset `try_into`. -/
inductive SSTableError where
  | dbFileCorrupted
  | panicked
deriving DecidableEq

/-- `0x80..=0xBF`: a UTF-8 continuation byte. -/
def utf8IsCont (b : Nat) : Bool := 128 ≤ b && b ≤ 191

/-- The admissible second byte of a three-byte sequence, per first byte
(Rust `core::str::validations::run_utf8_validation`): `(0xE0, 0xA0..=0xBF)`,
`(0xE1..=0xEC, 0x80..=0xBF)`, `(0xED, 0x80..=0x9F)`,
`(0xEE..=0xEF, 0x80..=0xBF)`. -/
def utf8Width3First (b c1 : Nat) : Bool :=
  (b = 224 && (160 ≤ c1 && c1 ≤ 191)) ||
  ((225 ≤ b && b ≤ 236) && utf8IsCont c1) ||
  (b = 237 && (128 ≤ c1 && c1 ≤ 159)) ||
  ((238 ≤ b && b ≤ 239) && utf8IsCont c1)

/-- The admissible second byte of a four-byte sequence:
`(0xF0, 0x90..=0xBF)`, `(0xF1..=0xF3, 0x80..=0xBF)`,
`(0xF4, 0x80..=0x8F)`. -/
def utf8Width4First (b c1 : Nat) : Bool :=
  (b = 240 && (144 ≤ c1 && c1 ≤ 191)) ||
  ((241 ≤ b && b ≤ 243) && utf8IsCont c1) ||
  (b = 244 && (128 ≤ c1 && c1 ≤ 143))

/-- The UTF-8 bytes of U+FFFD, the replacement character. -/
def replacementChar : List Nat := [239, 191, 189]

/-- One step of Rust's lossy UTF-8 decoding (`String::from_utf8_lossy`,
U+FFFD substitution of maximal subparts): given the first byte and the rest
of the stream, the emitted bytes and the remaining stream. A valid sequence
is emitted verbatim; an invalid one yields one replacement character, with
the decoder resuming at the offending byte (`error_len = Some(n)`: resume
after the `n` consumed bytes) or at the end for a truncated tail
(`error_len = None`). Byte widths: `< 0x80` one byte; `0xC2..=0xDF` two;
`0xE0..=0xEF` three; `0xF0..=0xF4` four; anything else
(`0x80..=0xC1`, `0xF5..=0xFF`) is an invalid start, one byte replaced. -/
def utf8Step (b : Nat) (rest : List Nat) : List Nat × List Nat :=
  if b < 128 then ([b], rest)
  else if 194 ≤ b && b ≤ 223 then
    match rest with
    | [] => (replacementChar, [])
    | c1 :: rest1 =>
      if utf8IsCont c1 then ([b, c1], rest1)
      else (replacementChar, c1 :: rest1)
  else if 224 ≤ b && b ≤ 239 then
    match rest with
    | [] => (replacementChar, [])
    | c1 :: rest1 =>
      if utf8Width3First b c1 then
        match rest1 with
        | [] => (replacementChar, [])
        | c2 :: rest2 =>
          if utf8IsCont c2 then ([b, c1, c2], rest2)
          else (replacementChar, c2 :: rest2)
      else (replacementChar, c1 :: rest1)
  else if 240 ≤ b && b ≤ 244 then
    match rest with
    | [] => (replacementChar, [])
    | c1 :: rest1 =>
      if utf8Width4First b c1 then
        match rest1 with
        | [] => (replacementChar, [])
        | c2 :: rest2 =>
          if utf8IsCont c2 then
            match rest2 with
            | [] => (replacementChar, [])
            | c3 :: rest3 =>
              if utf8IsCont c3 then ([b, c1, c2, c3], rest3)
              else (replacementChar, c3 :: rest3)
          else (replacementChar, c2 :: rest2)
      else (replacementChar, c1 :: rest1)
  else (replacementChar, rest)

/-- The lossy decode loop. The first argument is a structural bound on the
number of steps left (each step consumes at least one byte, so
`s.length + 1` never runs out); it can reach `0` only on an empty stream,
where decoding likewise ends. -/
def utf8LossyAux : Nat → List Nat → List Nat
  | _, [] => []
  | 0, _ :: _ => []
  | gas + 1, b :: rest =>
    (utf8Step b rest).1 ++ utf8LossyAux gas (utf8Step b rest).2

/-- `String::from_utf8_lossy` on a byte slot, as the UTF-8 bytes of the
resulting string. -/
def utf8LossyBytes (s : List Nat) : List Nat := utf8LossyAux (s.length + 1) s

/-- `.trim_end_matches('\0')` on the lossy-decoded string: strip its
trailing NUL characters — single-byte code points, hence exactly the
trailing `0` bytes of its UTF-8. -/
def trimNuls (slot : List Nat) : List Nat :=
  (slot.reverse.dropWhile (fun b => decide (b = 0))).reverse

/-- `seek(i * unit)` followed by `read_exact` of `K` bytes from the index
file; `none` models the I/O error raised when fewer than `K` bytes are
available there. -/
def readSlot (K O : Nat) (index : List Nat) (i : Nat) : Option (List Nat) :=
  if i * (K + O) + K ≤ index.length then
    some ((index.drop (i * (K + O))).take K)
  else none

/-- `read_exact` of the `O` offset bytes following slot `i`. -/
def readOffsetBytes (K O : Nat) (index : List Nat) (i : Nat) :
    Option (List Nat) :=
  if i * (K + O) + K + O ≤ index.length then
    some ((index.drop (i * (K + O) + K)).take O)
  else none

/-- `u64::from_le_bytes`: little-endian bytes to the offset value. -/
def leToNat (bytes : List Nat) : Nat :=
  bytes.foldr (fun b acc => b % 256 + 256 * acc) 0

/-- The `while lo < hi` binary-search loop of `SSTable::get`
(src/sstable/table.rs:133-160): probe `mid = (lo + hi) / 2`, read the
`K`-byte slot there (an unreadable slot is `DBFileCorrupted`), lossy-decode
it (`String::from_utf8_lossy`), strip the NUL padding and compare with the
target key — `&str` comparison is byte-lexicographic over the UTF-8 bytes:
`lo = mid + 1` when the probed key is smaller, else `hi = mid`. The first
argument is the loop variant `hi - lo`, strictly decreasing each iteration;
it reaches `0` exactly when `lo ≥ hi`, where the loop exits with `lo`. -/
def bsearchAux (K O : Nat) (index : List Nat) (key : Key) :
    Nat → Nat → Nat → Except SSTableError Nat
  | 0, lo, _ => .ok lo
  | gas + 1, lo, hi =>
    if lo < hi then
      let mid := (lo + hi) / 2
      match readSlot K O index mid with
      | none => .error .dbFileCorrupted
      | some slot =>
        if keyLt (trimNuls (utf8LossyBytes slot)) key then
          bsearchAux K O index key gas (mid + 1) hi
        else
          bsearchAux K O index key gas lo mid
    else .ok lo

/-- The binary search of `SSTable::get`, entered with `lo = 0`,
`hi = count`. -/
def binarySearchLoop (K O : Nat) (index : List Nat) (key : Key)
    (lo hi : Nat) : Except SSTableError Nat :=
  bsearchAux K O index key (hi - lo) lo hi

/-- `SSTable::get` (src/sstable/table.rs:101-203). In source order: the
`key > max || key < min` guard; the `self.count % unit != 0` corruption check
with `unit = K + O`; the binary search over the index; the `lo < self.size`
guard; the final slot read, lossy UTF-8 decode, NUL-trim and equality test
against the full key; the `O`-byte offset read and `u64::from_le_bytes` via
`try_into().expect(..)` (a panic unless the buffer has 8 bytes); and
`load_record`, which seeks the storage file to the offset and `unwrap`s the
codec's `deserialize` (`dec` returning `none` models a decode failure, hence
a panic). -/
def sstableGet (dec : List Nat → Option (Option α)) (K O : Nat)
    (t : SSTableModel α) (key : Key) :
    Except SSTableError (Option (Option α)) :=
  if keyLt t.max key || keyLt key t.min then .ok none
  else
    if t.count % (K + O) ≠ 0 then .error .dbFileCorrupted
    else
      match binarySearchLoop K O t.index key 0 t.count with
      | .error e => .error e
      | .ok lo =>
        if lo < t.size then
          match readSlot K O t.index lo with
          | none => .error .dbFileCorrupted
          | some slot =>
            if trimNuls (utf8LossyBytes slot) = key then
              match readOffsetBytes K O t.index lo with
              | none => .error .dbFileCorrupted
              | some obuf =>
                if obuf.length = 8 then
                  match dec (t.storage.drop (leToNat obuf)) with
                  | some v => .ok (some v)
                  | none => .error .panicked
                else .error .panicked
            else .ok none
        else .ok none

/-! ## Compaction tier selection (`Engine::compact`, src/engine/mod.rs:125-148) -/

/-- The table indices grouped into tier `t` by `Engine::compact`
(src/engine/mod.rs:129-138): the positions of the table list whose size maps
to tier `t`. The tier of a table —
`(size as f64 / tier_size).log(multiplier).floor() as usize` in the source —
is floating-point arithmetic and is abstracted as an arbitrary function
`tierOf` of the table's size; the selection property proved about it holds
for every such function. -/
def tierIndices (tierOf : Nat → Nat) (sizes : List Nat) (t : Nat) :
    List Nat :=
  (List.range sizes.length).filter
    (fun i => decide (tierOf (sizes.getD i 0) = t))

/-- The tier selection of `Engine::compact` (src/engine/mod.rs:140-145): find
a tier holding strictly more than `compaction_threshold` tables and take all
its members; `none` when no tier qualifies (the early `return`). `HashMap`
iteration order is unspecified in Rust; the model scans tiers in
first-appearance order, and the claims do not depend on which qualifying tier
is found. -/
def selectCompactionGroup (tierOf : Nat → Nat) (sizes : List Nat)
    (threshold : Nat) : Option (List Nat) :=
  ((sizes.map tierOf).find?
      (fun t => decide (threshold < (tierIndices tierOf sizes t).length))).map
    (tierIndices tierOf sizes)

/-! ## The k-way merge compactor (`compact`, src/compaction/mod.rs:51-168)

The compactor streams `(key, value)` pairs out of each input table via
`read_next_key`; an input table is modelled as that stream, a list of
`(key, Option value)` pairs. The `BinaryHeap<Reverse<Entry>>` is modelled as
a list kept sorted by the `Entry` ordering, a faithful refinement: pushes
insert, pops return a least entry. -/

/-- `Entry<T>` (src/compaction/mod.rs:14-47): key, the input's position in
the input list (`reader`; the spec's `age_rank`, higher = newer), and the
decoded `Option<Record>` value. -/
structure HeapEntry (α : Type) where
  key : Key
  reader : Nat
  value : Option α
deriving DecidableEq

/-- The `Ord` of `Entry<T>`: `self.key.cmp(&other.key).then(self.reader.cmp(
&other.reader))`. -/
def entryLe (a b : HeapEntry α) : Bool :=
  keyLt a.key b.key || (decide (a.key = b.key) && decide (a.reader ≤ b.reader))

/-- `heap.push`: ordered insertion into the sorted-list model of the
min-heap. -/
def heapPush (h : List (HeapEntry α)) (e : HeapEntry α) :
    List (HeapEntry α) :=
  match h with
  | [] => [e]
  | x :: xs => if entryLe e x then e :: x :: xs else x :: heapPush xs e

/-- One `for (i, ..) in readers.iter_mut().enumerate()` read loop (the
seeding loop at src/compaction/mod.rs:87-93 and the identical per-iteration
loop at 114-120): each input that still has entries yields its next
`(key, value)` pair tagged with its position `i`. -/
def readRound (i : Nat) : List (List (Key × Option α)) → List (HeapEntry α)
  | [] => []
  | r :: rs =>
    match r with
    | [] => readRound (i + 1) rs
    | e :: _ => HeapEntry.mk e.1 i e.2 :: readRound (i + 1) rs

/-- A full read round: push each input's next entry onto the heap and
advance every input by one. -/
def pushRound (readers : List (List (Key × Option α)))
    (heap : List (HeapEntry α)) :
    List (List (Key × Option α)) × List (HeapEntry α) :=
  (readers.map (·.drop 1), (readRound 0 readers).foldl heapPush heap)

/-- `versions.into_iter().max_by_key(|entry| entry.reader)`: the entry with
the highest reader index; `none` on an empty list (where the source
`unwrap`s, i.e. panics). Rust's `max_by_key` returns the last of equally
maximal elements; so does this. -/
def maxByReader : List (HeapEntry α) → Option (HeapEntry α)
  | [] => none
  | e :: es =>
    match maxByReader es with
    | none => some e
    | some m => some (if m.reader < e.reader then e else m)

/-- The panics of `compact`: the explicit guard
`panic!("There must be a number of tables")` on an empty input list, the
`heap.peek().unwrap()` after seeding (reached with every input empty), and
the `versions.max_by_key(..).unwrap()` on an empty duplicate group. -/
inductive CompactPanic where
  | emptyInput
  | emptyHeap
  | emptyGroup
deriving DecidableEq

/-- Total length of all remaining input streams. -/
def sumLen (readers : List (List (Key × Option α))) : Nat :=
  (readers.map List.length).sum

/-- The main merge loop of `compact` (src/compaction/mod.rs:107-143). While
the heap is non-empty: take `current_key` from the heap minimum; run a read
round; pop every entry whose key equals `current_key` (the source pops until
the first mismatch and pushes the mismatch back, which on the sorted heap is
exactly the leading run of `current_key` entries); resolve the group to its
highest-reader entry and append `(key, value)` — tombstone or not — to the
output stream. -/
def compactLoop (readers : List (List (Key × Option α)))
    (heap : List (HeapEntry α)) (out : List (Key × Option α)) :
    Except CompactPanic (List (Key × Option α)) :=
  match heap with
  | [] => .ok out
  | top :: rest =>
    let ck := top.key
    let rh := pushRound readers (top :: rest)
    let versions := rh.2.takeWhile (fun e => decide (e.key = ck))
    let heap' := rh.2.dropWhile (fun e => decide (e.key = ck))
    match hs : maxByReader versions with
    | none => .error .emptyGroup
    | some surv => compactLoop rh.1 heap' (out ++ [(surv.key, surv.value)])
termination_by sumLen readers + heap.length
decreasing_by
  have heapPush_len : ∀ (h : List (HeapEntry α)) (e : HeapEntry α),
      (heapPush h e).length = h.length + 1 := by
    intro h e
    induction h with
    | nil => rfl
    | cons y ys ih =>
      simp only [heapPush]
      split <;> simp [ih]
  have foldl_len : ∀ (l h : List (HeapEntry α)),
      (l.foldl heapPush h).length = h.length + l.length := by
    intro l
    induction l with
    | nil => intro h; rfl
    | cons y ys ih =>
      intro h
      simp only [List.foldl_cons, ih, heapPush_len, List.length_cons]
      omega
  have readRound_len : ∀ (rs : List (List (Key × Option α))) (i : Nat),
      (readRound i rs).length = rs.countP (fun r => !r.isEmpty) := by
    intro rs
    induction rs with
    | nil => intro i; rfl
    | cons r rs ih =>
      intro i
      cases r <;> simp [readRound, ih, List.countP_cons]
  have sumLen_drop : ∀ (rs : List (List (Key × Option α))),
      sumLen (rs.map (·.drop 1)) + rs.countP (fun r => !r.isEmpty) =
        sumLen rs := by
    intro rs
    induction rs with
    | nil => rfl
    | cons r rs ih =>
      cases r <;>
        simp only [sumLen, List.countP_cons, List.map_cons, List.sum_cons,
          List.drop_succ_cons, List.drop_nil, List.length_nil,
          List.length_cons, List.isEmpty_nil, List.isEmpty_cons,
          Bool.not_true, Bool.not_false, cond_true, cond_false,
          List.drop_one] at * <;>
        simp_all <;> omega
  have hm : sumLen (pushRound readers (x :: xs)).1 +
      (pushRound readers (x :: xs)).2.length =
      sumLen readers + (x :: xs).length := by
    simp only [pushRound, foldl_len, readRound_len]
    have := sumLen_drop readers
    omega
  have h2 :
      (List.takeWhile (fun e => decide (e.key = x.key))
          (pushRound readers (x :: xs)).2).length +
        (List.dropWhile (fun e => decide (e.key = x.key))
          (pushRound readers (x :: xs)).2).length =
        (pushRound readers (x :: xs)).2.length := by
    rw [← List.length_append, List.takeWhile_append_dropWhile]
  have hv : versions ≠ [] := fun hnil => Option.noConfusion (hnil ▸ hs)
  have hv1 : 0 <
      (List.takeWhile (fun e => decide (e.key = x.key))
        (pushRound readers (x :: xs)).2).length :=
    List.length_pos.mpr hv
  simp only [List.length_cons] at hm ⊢
  omega

/-- `compact` (src/compaction/mod.rs:51-168) at the granularity of the
`(key, value)` pairs `read_next_key` streams from each input, inputs ordered
as `Engine::compact` passes them (ascending position = ascending recency:
the last input is the newest). Panics on an empty input list; seeds the heap
with each input's first entry; `heap.peek().unwrap()` for the initial
`min`/`max` panics when every input is empty; then the merge loop runs. The
result is the `(key, value)` stream written to the output SSTable. -/
def compactModel (tables : List (List (Key × Option α))) :
    Except CompactPanic (List (Key × Option α)) :=
  if tables.isEmpty then .error .emptyInput
  else
    let rh := pushRound tables []
    if rh.2.isEmpty then .error .emptyHeap
    else compactLoop rh.1 rh.2 []

/-! ## WAL replay (`src/memtable/log_reader.rs` and `MemTable::build_from`)

`next_op` decodes straight from the byte stream with the external `bincode`
codec. That codec has a single "ran out of bytes" failure — reading past the
end of input raises `DecodeError::UnexpectedEnd` (or `Io{UnexpectedEof}` from
a reader), whether the end falls on a record boundary or inside a record; the
repository's own wrapper (src/serialization/binary_impl.rs) maps both of
those to its one `SerializationError::UnexpectedEOF`. The codec is modelled
for a record type whose bincode payload is its key: an enum tag byte
(`0` = `Insert`, `1` = `Delete`) followed by a length-prefixed byte string
(lengths under 251 take one varint byte, which the model assumes). -/

/-- The decode outcomes of the external codec as `next_op` distinguishes
them: a decoded operation with the remaining stream; the single
unexpected-end outcome; or another decode failure (e.g. an invalid enum
variant tag). -/
inductive DecodeResult (α : Type) where
  | ok (op : LogOperation α) (rest : List Nat)
  | unexpectedEnd
  | otherError
deriving DecidableEq

/-- Length-prefixed byte-string encoding. -/
def encodeStr (k : Key) : List Nat := k.length :: k

/-- Decode a length-prefixed byte string; `none` when the stream runs out of
bytes before the string is complete. -/
def decodeStr : List Nat → Option (Key × List Nat)
  | [] => none
  | n :: rest =>
    if n ≤ rest.length then some (rest.take n, rest.drop n) else none

/-- The external codec's decode of one WAL `Operation` (records carry no
payload beyond their key, so the record type is `Key × Unit`). Running out
of bytes anywhere — at the tag, in the length, or in the string — is the
codec's one unexpected-end outcome. -/
def decodeOp : List Nat → DecodeResult Unit
  | [] => .unexpectedEnd
  | t :: rest =>
    if t = 0 then
      match decodeStr rest with
      | some (k, rest') => .ok (.insert (k, ())) rest'
      | none => .unexpectedEnd
    else if t = 1 then
      match decodeStr rest with
      | some (k, rest') => .ok (.delete k) rest'
      | none => .unexpectedEnd
    else .otherError

/-- The matching encode of one WAL `Operation`. -/
def encodeOp : LogOperation Unit → List Nat
  | .insert r => 0 :: encodeStr r.1
  | .delete k => 1 :: encodeStr k

/-- A whole WAL: the concatenation of its records' encodings. -/
def encodeOps (ops : List (LogOperation Unit)) : List Nat :=
  (ops.map encodeOp).flatten

/-- `MemTableLogReader::next_op` (src/memtable/log_reader.rs:19-32): match
on the decode result — `Ok(op)` yields the operation; `UnexpectedEnd` and
`Io{inner}` with `inner.kind() == UnexpectedEof` both yield `Ok(None)`,
terminating replay; any other decode error becomes an `Err`. -/
def nextOp (s : List Nat) :
    Except IOErr (Option (LogOperation Unit × List Nat)) :=
  match decodeOp s with
  | .ok op rest => .ok (some (op, rest))
  | .unexpectedEnd => .ok none
  | .otherError => .error 0

/-- The replay loop of `MemTable::build_from` (src/memtable/table.rs:41-64):
`while let Some(op) = reader.next_op(..)?`, applying `Insert` as
`tree.remove` + `tree.insert(key, Some(record))` and `Delete` as
`tree.remove` + `tree.insert(key, None)`. The first argument is a structural
bound on the number of records left (each decoded record consumes at least
one byte, so `s.length + 1` never runs out); it can reach `0` only on an
empty stream, where the loop likewise ends. -/
def buildFromAux : Nat → List Nat → MemMap Unit → Except IOErr (MemMap Unit)
  | 0, _, tree => .ok tree
  | gas + 1, s, tree =>
    match nextOp s with
    | .error e => .error e
    | .ok none => .ok tree
    | .ok (some (op, rest)) =>
      match op with
      | .insert r => buildFromAux gas rest (mapUpsert tree r.1 (some r.2))
      | .delete k => buildFromAux gas rest (mapUpsert tree k none)

/-- `MemTable::build_from` on a WAL byte stream, starting from an empty
tree. -/
def buildFrom (s : List Nat) : Except IOErr (MemMap Unit) :=
  buildFromAux (s.length + 1) s []

/-- The map obtained by applying logged operations in order (the spec's
"observationally equivalent to applying the logged operations in order"). -/
def applyOps (ops : List (LogOperation Unit)) : MemMap Unit :=
  ops.foldl
    (fun tree op =>
      match op with
      | .insert r => mapUpsert tree r.1 (some r.2)
      | .delete k => mapUpsert tree k none)
    []

/-! ## Reference merge (written from the amended claim C1, not from the
source; to be compared with `compactModel`) -/

/-- Lookup a key in one input stream. -/
def lookupIn (t : List (Key × Option α)) (k : Key) : Option (Option α) :=
  (t.find? (fun e => decide (e.1 = k))).map (·.2)

/-- The value for `k` in the newest (highest-position) input containing
`k`. -/
def newestValue (tables : List (List (Key × Option α))) (k : Key) :
    Option (Option α) :=
  (tables.filterMap (fun t => lookupIn t k)).getLast?

/-- Insert into an ascending, duplicate-free key list, keeping it so. -/
def insertKeySorted (k : Key) : List Key → List Key
  | [] => [k]
  | x :: xs =>
    if keyLt k x then k :: x :: xs
    else if k = x then x :: xs
    else x :: insertKeySorted k xs

/-- All keys of all inputs, ascending and duplicate-free. -/
def unionKeys (tables : List (List (Key × Option α))) : List Key :=
  ((tables.map (·.map (·.1))).flatten).foldr insertKeySorted []

/-- The reference merge: every key of the union, in ascending byte order,
paired with its value in the newest input containing it — tombstones
included, nothing dropped. -/
def mergeSpec (tables : List (List (Key × Option α))) :
    List (Key × Option α) :=
  (unionKeys tables).filterMap (fun k => (newestValue tables k).map (k, ·))

/-- An input stream with strictly ascending keys (what `SSTable::create`
guarantees for every real SSTable). -/
def StrIncrKeys (t : List (Key × Option α)) : Prop :=
  List.Pairwise (fun a b => keyLt a.1 b.1 = true) t

instance (t : List (Key × Option α)) : Decidable (StrIncrKeys t) :=
  inferInstanceAs (Decidable (List.Pairwise _ t))

/-- The strict key order as a proposition. -/
def keyLtP (a b : Key) : Prop := keyLt a b = true

/-- The heap-entry order as a proposition. -/
def entryLeP (a b : HeapEntry α) : Prop := entryLe a b = true

/-- Proof device for the compactor correctness: the heap entries contributed
by one input `t` sitting at position `i`, whose first element has stream
index `j` — the entries of `t` at stream indices `≤ c` whose keys are not
among the already-emitted keys `done`. -/
def tableSlice (done : List Key) (c i : Nat) :
    Nat → List (Key × Option α) → List (HeapEntry α)
  | _, [] => []
  | j, e :: t =>
    (if j ≤ c ∧ e.1 ∉ done then [HeapEntry.mk e.1 i e.2] else []) ++
      tableSlice done c i (j + 1) t

/-- Proof device: the combined mid-run heap entries of the inputs from
position `i` on. -/
def contentsAux (done : List Key) (c : Nat) :
    Nat → List (List (Key × Option α)) → List (HeapEntry α)
  | _, [] => []
  | i, t :: ts => tableSlice done c i 0 t ++ contentsAux done c (i + 1) ts

/-- Proof device: what `compact`'s heap holds (up to permutation) after `r`
completed merge rounds is `heapContents tables r r`; just after round `r`'s
read phase it is `heapContents tables (r + 1) r`. -/
def heapContents (tables : List (List (Key × Option α))) (c r : Nat) :
    List (HeapEntry α) :=
  contentsAux ((unionKeys tables).take r) c 0 tables

/-- Proof device: the occurrences of key `k` across the inputs from position
`i` on, one heap entry per input containing `k`, in ascending input order. -/
def occList (k : Key) : Nat → List (List (Key × Option α)) →
    List (HeapEntry α)
  | _, [] => []
  | i, t :: ts =>
    (match lookupIn t k with
      | some v => [HeapEntry.mk k i v]
      | none => []) ++ occList k (i + 1) ts

/-! ## Concrete instances used by witnesses and counterexamples -/

/-- Memtable instance with a live record for the C4 witness. -/
def memLiveW : TableFn Nat := fun k => if k = [107] then some (some 5) else none

/-- Memtable instance with a tombstone for the C4 witness. -/
def memTombW : TableFn Nat := fun k => if k = [107] then some none else none

/-- Memtable instance missing the key for the C4 witness. -/
def memMissW : TableFn Nat := fun _ => none

/-- Older SSTable instance holding the key live, for the C4 witness. -/
def tblOldW : TableFn Nat := fun k => if k = [107] then some (some 1) else none

/-- Newer SSTable instance holding the key live, for the C4 witness. -/
def tblNewW : TableFn Nat := fun k => if k = [107] then some (some 2) else none

/-- SSTable instance not holding the key, for the C4 witness. -/
def tblNoneW : TableFn Nat := fun _ => none

/-- The pre-flush engine state of the C7 evidence: one committed record,
already durable, nothing flushed yet. -/
def flushStart : EngineState Nat := ⟨[([107], some 5)], [], []⟩

/-- The state after `add_sstable_to_metadata` and `memtable.clear()` but
before `tables.push(table)`: memtable empty, descriptor in the metadata
file, table not yet in the in-memory list. -/
def flushMid : EngineState Nat := ⟨[], [[([107], some 5)]], []⟩

/-- A concrete instance of the external record codec, for `Option Nat`
payloads below 256: a tombstone is the byte `0`, a live value `n` is `1, n`.
Self-delimiting, as the spec assumes of the shipped codec. -/
def encNat : Option Nat → List Nat
  | none => [0]
  | some n => [1, n % 256]

/-- The matching decoder: reads one encoded `Option Nat` from the head of
the stream; `none` on malformed input (a decode failure). -/
def decNat : List Nat → Option (Option Nat)
  | 0 :: _ => some none
  | 1 :: v :: _ => some (some v)
  | _ => none

/-- A well-formed single-entry SSTable (key `[97]`, live value `7`) built by
the builder with `K = 24`, for the C6 evidence. -/
def tblOneEntry : SSTableModel Nat := sstableCreate encNat 24 [([97], some 7)]

/-- The entries of the C5/C8 long-key SSTable: ten strictly ascending
three-byte keys `[97, 96 + i, 97]`, each longer than `K = 2`, with live
values `i`. Ten entries make `count` a multiple of `K + O = 10`, keeping the
`count % (K + O)` check of C6 out of the way. -/
def longKeyEntries : List (Key × Option Nat) :=
  (List.range 10).map (fun i => ([97, 97 + i, 97], some (i + 1)))

/-- The SSTable built from `longKeyEntries` with `K = 2` (every key
truncated in the index), for the C5 evidence. -/
def tblLongKeys : SSTableModel Nat := sstableCreate encNat 2 longKeyEntries

/-- Entries whose last key is the UTF-8 bytes of `"\u{FFFD}"` — the
replacement character itself, `[0xEF, 0xBF, 0xBD]`, three bytes — preceded
by nine single-byte ASCII keys (ten entries keep `count % (K + O) = 0` for
`K = 2`, `O = 8`). Truncated to `K = 2` the last slot is `[0xEF, 0xBF]`, a
valid three-byte-sequence prefix cut short, which lossy-decodes back to one
replacement character: the trimmed slot equals the full three-byte key. -/
def fffdKeyEntries : List (Key × Option Nat) :=
  ((List.range 9).map (fun i => ([97 + i], some (i + 1)))) ++
    [([239, 191, 189], some 10)]

/-- The SSTable built from `fffdKeyEntries` with `K = 2`: the table on which
a lookup with a key longer than `K` does return the stored entry. -/
def tblFffdKey : SSTableModel Nat := sstableCreate encNat 2 fffdKeyEntries

/-! # Theorems -/

/-! ## Helper lemmas on the engine read walk -/

theorem walkTables_append_of_none (ts₁ ts₂ : List (TableFn α)) (k : Key)
    (h : ∀ t ∈ ts₁, t k = none) :
    walkTables (ts₁ ++ ts₂) k = walkTables ts₂ k := by
  induction ts₁ with
  | nil => rfl
  | cons t ts ih =>
    have ht : t k = none := h t (List.mem_cons_self t ts)
    simp only [List.cons_append, walkTables, ht]
    exact ih (fun t' h' => h t' (List.mem_cons_of_mem t h'))

theorem walkTables_of_all_none (ts : List (TableFn α)) (k : Key)
    (h : ∀ t ∈ ts, t k = none) : walkTables ts k = none := by
  have := walkTables_append_of_none ts [] k h
  simpa using this

/-- Claim C4, confirmed. `Engine::get` consults the memtable first: a live
memtable value is returned as present and a memtable tombstone as absent,
both without regard to the SSTable list (which is universally quantified,
hence never consulted). On a memtable miss it walks the SSTable list
newest-first (last position first): the first table that answers decides —
present on a live value, absent on a tombstone — tables not containing the
key are passed over, and an exhausted walk returns absent; consequently,
for a key duplicated across tables, the newest table's entry wins. -/
theorem C4_engine_get_dispatch (mem : TableFn α)
    (tables : List (TableFn α)) (k : Key) :
    (∀ r, mem k = some (some r) → engineGet mem tables k = some r) ∧
    (mem k = some none → engineGet mem tables k = none) ∧
    (mem k = none →
      ∀ older t newer, tables = older ++ t :: newer →
        (∀ t' ∈ newer, t' k = none) → ∀ v, t k = some v →
          engineGet mem tables k = v) ∧
    (mem k = none → (∀ t ∈ tables, t k = none) →
      engineGet mem tables k = none) := by
  refine ⟨?_, ?_, ?_, ?_⟩
  · intro r hm
    simp [engineGet, hm]
  · intro hm
    simp [engineGet, hm]
  · intro hm older t newer htab hnone v ht
    subst htab
    simp only [engineGet, hm, List.reverse_append, List.reverse_cons]
    rw [List.append_assoc, walkTables_append_of_none _ _ k
      (by intro t' h'; exact hnone t' (List.mem_reverse.mp h'))]
    simp [walkTables, ht]
  · intro hm hnone
    simp only [engineGet, hm]
    exact walkTables_of_all_none _ k
      (fun t h => hnone t (List.mem_reverse.mp h))

/-- Witness for C4: each dispatch clause applied at concrete inputs — a live
memtable hit, a memtable tombstone over a live older table, a key in both an
old and a new table where the newer wins, and an exhausted walk. -/
theorem C4_engine_get_dispatch_witness :
    engineGet memLiveW [tblOldW] [107] = some 5 ∧
    engineGet memTombW [tblOldW] [107] = none ∧
    engineGet memMissW [tblOldW, tblNewW, tblNoneW] [107] = some 2 ∧
    engineGet memMissW [tblNoneW] [107] = none := by
  refine ⟨?_, ?_, ?_, ?_⟩
  · exact (C4_engine_get_dispatch memLiveW [tblOldW] [107]).1 5 rfl
  · exact (C4_engine_get_dispatch memTombW [tblOldW] [107]).2.1 rfl
  · refine (C4_engine_get_dispatch memMissW [tblOldW, tblNewW, tblNoneW]
      [107]).2.2.1 rfl [tblOldW] tblNewW [tblNoneW] rfl ?_ (some 2) rfl
    intro t' h'
    simp only [List.mem_singleton] at h'
    subst h'
    rfl
  · refine (C4_engine_get_dispatch memMissW [tblNoneW] [107]).2.2.2 rfl ?_
    intro t h
    simp only [List.mem_singleton] at h
    subst h
    rfl

/-- Claim C2, code-bug evidence. The claim: every memtable mutation appends to
the WAL before the in-memory map is touched, and a failed append propagates
with the map completely unchanged. `MemTable::insert` does behave so (third
conjunct), but `MemTable::delete` upserts the tombstone into the tree
*before* the append: at the failing input — `delete` of key `[107]` on an
empty memtable with the WAL append failing — the error propagates, yet the
map has gained the tombstone instead of being left unchanged. -/
theorem C2_delete_mutates_map_on_failed_append :
    (memDelete (α := Nat) (some 7) ⟨[], []⟩ [107]).1 = some 7 ∧
    (memDelete (α := Nat) (some 7) ⟨[], []⟩ [107]).2.map = [([107], none)] ∧
    (memInsert (α := Nat) (some 7) ⟨[], []⟩ ([107], 5)).1 = some 7 ∧
    (memInsert (α := Nat) (some 7) ⟨[], []⟩ ([107], 5)).2 = ⟨[], []⟩ := by
  decide

/-- Claim C7, code-bug evidence. The claim: during a flush the new SSTable is
appended to the in-memory SSTable list before the memtable is cleared, so no
committed write is ever absent from both. In the source the order is
reversed — `add_sstable_to_metadata`, then `memtable.clear()`, then
`tables.push(table)` — so the flush trace of a state holding one committed
record passes through a state (after the clear, before the push) where
`Engine::get` answers absent for that record, though it answers present both
before the flush and after the push. -/
theorem C7_flush_commit_window :
    visibleGet flushStart [107] = some 5 ∧
    (flushTrace 32 32 flushStart).get? 2 = some flushMid ∧
    visibleGet flushMid [107] = none ∧
    ((flushTrace 32 32 flushStart).getLast?.map
      (fun s => visibleGet s [107])) = some (some 5) := by
  decide

/-- Claim C9, code-bug evidence. The claim: every SSTable file lands in its
designated subdirectory — index files under `indices/`, storage files under
`storage/` — for flush-born and compaction-born SSTables alike. Flush
passes the path pair through correctly, but `Engine::compact` hands
`(new_index_path, new_storage_path)` positionally to
`compact(.., new_storage_path, new_index_path)`, so a compaction persists
its storage file under `indices/<TypeName>-<N>.log` and its index file under
`storage/<TypeName>-<N>.log` — each in the other's subdirectory. -/
theorem C9_compaction_files_swapped :
    engineFlushFileDests "Photo" 3 =
      (⟨"storage", "Photo-3.log"⟩, ⟨"indices", "Photo-3.log"⟩) ∧
    engineCompactFileDests "Photo" 3 =
      (⟨"indices", "Photo-3.log"⟩, ⟨"storage", "Photo-3.log"⟩) := by
  exact ⟨rfl, rfl⟩

/-- The merge loop can only panic at the `max_by_key(..).unwrap()` on an
empty duplicate group — never at the empty-input guard. -/
theorem compactLoop_ne_emptyInput (readers : List (List (Key × Option α)))
    (heap : List (HeapEntry α)) (out : List (Key × Option α)) :
    compactLoop readers heap out ≠ .error .emptyInput := by
  induction readers, heap, out using compactLoop.induct with
  | case1 readers out => simp [compactLoop]
  | case2 readers out x xs ck rh versions hs =>
    intro hcontra
    rw [compactLoop] at hcontra
    split at hcontra
    · simp at hcontra
    · rename_i surv heq
      have hs' : maxByReader
          (List.takeWhile (fun e => decide (e.key = x.key))
            (pushRound readers (x :: xs)).2) = none := hs
      rw [hs'] at heq
      exact Option.noConfusion heq
  | case3 readers out x xs ck rh versions heap' surv hs ih =>
    intro hcontra
    rw [compactLoop] at hcontra
    split at hcontra
    · rename_i heq
      have hs' : maxByReader
          (List.takeWhile (fun e => decide (e.key = x.key))
            (pushRound readers (x :: xs)).2) = some surv := hs
      rw [hs'] at heq
      exact Option.noConfusion heq
    · rename_i surv' heq
      have hs' : maxByReader
          (List.takeWhile (fun e => decide (e.key = x.key))
            (pushRound readers (x :: xs)).2) = some surv := hs
      rw [hs'] at heq
      injection heq with heq'
      subst heq'
      exact ih hcontra

/-- Claim C10, confirmed. Through `Engine::compact`, a tier qualifies for
compaction only when it holds strictly more than `compaction_threshold`
tables, so the selected index group is non-empty — for every tier
assignment, table-size list and threshold — and therefore the table list
handed to the compactor (the group mapped through any table lookup) never
trips `compact`'s panic on an empty input list. -/
theorem C10_selected_group_nonempty (tierOf : Nat → Nat) (sizes : List Nat)
    (threshold : Nat) (g : List Nat)
    (h : selectCompactionGroup tierOf sizes threshold = some g) :
    g ≠ [] ∧ ∀ lookup : Nat → List (Key × Option Nat),
      compactModel (g.map lookup) ≠ .error .emptyInput := by
  obtain ⟨t, hfind, hg⟩ := Option.map_eq_some'.mp h
  have hp := List.find?_some hfind
  have hlen : threshold < (tierIndices tierOf sizes t).length := by
    simpa using hp
  have hne : g ≠ [] := by
    subst hg
    intro hnil
    rw [hnil] at hlen
    simp at hlen
  refine ⟨hne, ?_⟩
  intro lookup
  have hmapne : g.map lookup ≠ [] := by
    intro hnil
    exact hne (List.map_eq_nil_iff.mp hnil)
  simp only [compactModel]
  rw [if_neg (by simpa [List.isEmpty_iff] using hmapne)]
  split
  · intro hcontra
    simp at hcontra
  · exact compactLoop_ne_emptyInput _ _ _

/-- Witness for C10: the selection at `tierOf = id`, sizes `[0, 0]`,
threshold `1` yields the group `[0, 1]`, which is non-empty and does not
trip the compactor's empty-input panic. -/
theorem C10_selected_group_nonempty_witness :
    ([0, 1] : List Nat) ≠ [] ∧
    compactModel (([0, 1] : List Nat).map
      (fun _ => [([97], (none : Option Nat))])) ≠ .error .emptyInput := by
  have h := C10_selected_group_nonempty (fun n => n) [0, 0] 1 [0, 1]
    (by decide)
  exact ⟨h.1, h.2 _⟩

/-! ## C8: index stride -/

theorem padSlot_length (K : Nat) (key : Key) : (padSlot K key).length = K := by
  simp only [padSlot, List.length_append, List.length_take,
    List.length_replicate]
  omega

theorem indexFileBytes_length (K : Nat) (pairs : List (Key × Nat)) :
    (indexFileBytes K pairs).length = pairs.length * (K + 8) := by
  induction pairs with
  | nil => simp [indexFileBytes]
  | cons p ps ih =>
    simp only [indexFileBytes, List.map_cons, List.flatten_cons,
      List.length_append, List.length_cons] at *
    rw [ih, padSlot_length]
    have hle : (u64LeBytes p.2).length = 8 := rfl
    rw [hle]
    ring

theorem buildStorage_snd_length (enc : Option α → List Nat)
    (entries : List (Key × Option α)) :
    (buildStorage enc entries).2.length = entries.length := by
  suffices h : ∀ s : List Nat, ∀ ix : List (Key × Nat),
      ((entries.foldl
          (fun acc e => (acc.1 ++ enc e.2, acc.2 ++ [(e.1, acc.1.length)]))
          (s, ix)).2).length = ix.length + entries.length by
    simpa [buildStorage] using h [] []
  induction entries with
  | nil => intro s ix; simp
  | cons e es ih =>
    intro s ix
    rw [List.foldl_cons, ih]
    simp only [List.length_append, List.length_cons, List.length_nil]
    omega

/-- Claim C8, counterexample. The claim: every index entry is a `K`-byte key
slot followed by an `O`-byte offset with `O = index_offset_size` from the
configuration, so the index length is `count * (K + O)`. At the concrete
input — a single-entry SSTable built with `K = 2` under a configuration with
`O = 4` — the builder writes `offset.to_le_bytes()`, the 8 bytes of the
`u64`, so the index is 10 bytes, not `1 * (2 + 4) = 6`. -/
theorem C8_index_stride_counterexample :
    (sstableCreate encNat 2 [([97, 98], some 5)]).index.length ≠
      (sstableCreate encNat 2 [([97, 98], some 5)]).count * (2 + 4) := by
  decide

/-- Claim C8, as amended. For every SSTable produced by a flush build or by a
compaction, the index file length equals `count * (K + 8)`: each entry is a
`K`-byte right-padded NUL-filled key slot followed by the 8 little-endian
bytes of the `u64` offset, regardless of the configured `index_offset_size`
(so the claim's `count * (K + O)` holds exactly when `O = 8`). Stated for
the raw index-writing loop (shared verbatim by `SSTable::create` and
`compact`) and for the builder's output. -/
theorem C8_index_stride (K : Nat) (pairs : List (Key × Nat))
    (enc : Option α → List Nat) (entries : List (Key × Option α)) :
    (indexFileBytes K pairs).length = pairs.length * (K + 8) ∧
    (sstableCreate enc K entries).index.length =
      (sstableCreate enc K entries).count * (K + 8) := by
  refine ⟨indexFileBytes_length K pairs, ?_⟩
  simp only [sstableCreate, indexFileBytes_length, buildStorage_snd_length]

/-! ## C6: the corruption check -/

/-- Claim C6, code-bug evidence. The claim: `SSTable::get` reports corruption
exactly when the on-disk index is malformed, and in particular never errors
on a well-formed builder-produced SSTable, regardless of entry count. The
source instead tests `self.count % (K + O) != 0` — the entry count modulo
the byte stride, not the index length — so the well-formed single-entry
table built with `K = 24`, `O = 8` (index length `32 = 1 * (K + O)`, exactly
the claimed invariant) makes `get` of its own key return `DBFileCorrupted`,
because `1 % 32 ≠ 0`. -/
theorem C6_wellformed_table_reported_corrupt :
    tblOneEntry.index.length = tblOneEntry.count * (24 + 8) ∧
    tblOneEntry.count = 1 ∧
    sstableGet decNat 24 8 tblOneEntry [97] = .error .dbFileCorrupted := by
  decide

/-! ## C5: keys longer than K -/

theorem utf8Step_ascii (b : Nat) (rest : List Nat) (hb : b < 128) :
    utf8Step b rest = ([b], rest) := by
  unfold utf8Step
  rw [if_pos hb]

theorem utf8Step_fst_head (b : Nat) (rest : List Nat) (hb : ¬ b < 128) :
    (utf8Step b rest).1.head? = some 239 ∨
    (utf8Step b rest).1.head? = some b := by
  unfold utf8Step
  rw [if_neg hb]
  repeat' split
  all_goals first
    | exact Or.inl rfl
    | exact Or.inr rfl

theorem utf8Step_snd_length (b : Nat) (rest : List Nat) :
    (utf8Step b rest).2.length ≤ rest.length := by
  unfold utf8Step
  repeat' split
  all_goals simp_all [List.length_cons]
  all_goals omega

theorem utf8LossyAux_ascii :
    ∀ (gas : Nat) (s : List Nat), s.length < gas →
      (∀ b ∈ utf8LossyAux gas s, b < 128) → utf8LossyAux gas s = s := by
  intro gas
  induction gas with
  | zero => intro s hlen _; exact absurd hlen (by omega)
  | succ g ih =>
    intro s hlen hascii
    cases s with
    | nil => rfl
    | cons b rest =>
      have hunf : utf8LossyAux (g + 1) (b :: rest) =
          (utf8Step b rest).1 ++ utf8LossyAux g (utf8Step b rest).2 := rfl
      by_cases hb : b < 128
      · rw [utf8Step_ascii b rest hb] at hunf
        rw [hunf] at hascii ⊢
        have hlen' : rest.length < g := by
          simp only [List.length_cons] at hlen
          omega
        rw [ih rest hlen' (fun x hx => hascii x (by simp [hx]))]
        rfl
      · exfalso
        rcases utf8Step_fst_head b rest hb with hh | hh
        · have h239 : (239 : Nat) ∈ utf8LossyAux (g + 1) (b :: rest) := by
            rw [hunf]
            exact List.mem_append_left _ (List.mem_of_mem_head? hh)
          exact absurd (hascii 239 h239) (by omega)
        · have hbmem : b ∈ utf8LossyAux (g + 1) (b :: rest) := by
            rw [hunf]
            exact List.mem_append_left _ (List.mem_of_mem_head? hh)
          exact absurd (hascii b hbmem) hb

theorem utf8Lossy_ascii (s : List Nat)
    (h : ∀ b ∈ utf8LossyBytes s, b < 128) : utf8LossyBytes s = s :=
  utf8LossyAux_ascii (s.length + 1) s (by omega) h

theorem all_zero_reverse_replicate (t : List Nat) (h : ∀ x ∈ t, x = 0) :
    t.reverse = List.replicate t.length 0 := by
  have hrev : ∀ x ∈ t.reverse, x = 0 := fun x hx => h x (List.mem_reverse.mp hx)
  have h2 := List.eq_replicate_of_mem hrev
  rwa [List.length_reverse] at h2

theorem trimNuls_decomp (l : List Nat) :
    ∃ m, l = trimNuls l ++ List.replicate m 0 := by
  refine ⟨(l.reverse.takeWhile (fun b => decide (b = 0))).length, ?_⟩
  have hall : ∀ x ∈ l.reverse.takeWhile (fun b => decide (b = 0)), x = 0 := by
    intro x hx
    have := List.mem_takeWhile_imp hx
    simpa using this
  have hrev := all_zero_reverse_replicate _ hall
  conv_lhs => rw [← List.reverse_reverse l,
    show l.reverse = l.reverse.takeWhile (fun b => decide (b = 0)) ++
        l.reverse.dropWhile (fun b => decide (b = 0)) from
      (List.takeWhile_append_dropWhile (fun b => decide (b = 0))
        l.reverse).symm]
  rw [List.reverse_append, hrev]
  rfl

theorem readSlot_length (K O : Nat) (index : List Nat) (i : Nat)
    (slot : List Nat) (h : readSlot K O index i = some slot) :
    slot.length = K := by
  unfold readSlot at h
  split at h
  · injection h with h
    subst h
    simp only [List.length_take, List.length_drop]
    omega
  · exact Option.noConfusion h

/-- Claim C5, counterexample. The claim: for a key longer than `K` present in
an SSTable, `get` still returns the stored entry, the storage record
deciding. At the concrete input — the ten-entry table of three-byte keys
built with `K = 2` (`count` a multiple of `K + O`, so the stride check
passes) — the key `[97, 97, 97]` is stored with live value `1`, yet `get`
returns "not in this table": the ASCII slot lossy-decodes to itself, and the
trimmed two-byte result can never equal the three-byte key, so the storage
record is never consulted. -/
theorem C5_long_key_counterexample :
    lookupIn longKeyEntries [97, 97, 97] = some (some 1) ∧
    tblLongKeys.count % (2 + 8) = 0 ∧
    sstableGet decNat 2 8 tblLongKeys [97, 97, 97] = .ok none := by
  decide

/-- Claim C5, as amended. Keys longer than `K` are truncated to `K` bytes in
the index (the slot is exactly the key's first `K` bytes). A lookup with a
key longer than `K` returns the stored entry only when the lossy UTF-8
decode of the truncated slot reproduces the full key, which can happen for a
key ending in a multi-byte character: the concrete conjunct shows the
three-byte key `"\u{FFFD}"` whose two-byte truncation `[0xEF, 0xBF]`
lossy-decodes back to the replacement character, so `get` returns the stored
entry without ever comparing storage-side keys. For every key of single-byte
(ASCII) bytes, however, the trimmed decoded slot can never equal the longer
key — an all-ASCII decode is the slot itself, at most `K` bytes — so
whatever table, decoder and offset width, `get` answers "not in this table"
or an error, never `Ok(Some(..))`, and the storage record is never
consulted. -/
theorem C5_long_key_lookup (dec : List Nat → Option (Option α)) (K O : Nat)
    (t : SSTableModel α) (key : Key) (hK : K < key.length)
    (hASC : ∀ b ∈ key, b < 128) :
    padSlot K key = key.take K ∧
    (∀ v, sstableGet dec K O t key ≠ .ok (some v)) ∧
    sstableGet decNat 2 8 tblFffdKey [239, 191, 189] = .ok (some (some 10)) := by
  refine ⟨?_, ?_, by decide⟩
  · simp [padSlot, Nat.sub_eq_zero_of_le (le_of_lt hK)]
  · intro v hcontra
    unfold sstableGet at hcontra
    split at hcontra
    · exact absurd hcontra (by simp)
    split at hcontra
    · exact absurd hcontra (by simp)
    split at hcontra
    · exact absurd hcontra (by simp)
    rename_i lo hbs
    split at hcontra
    · split at hcontra
      · exact absurd hcontra (by simp)
      · rename_i slot hslot
        split at hcontra
        · rename_i heq
          have h1 : slot.length = K :=
            readSlot_length K O t.index lo slot hslot
          obtain ⟨m, hdecomp⟩ := trimNuls_decomp (utf8LossyBytes slot)
          rw [heq] at hdecomp
          have hascii : ∀ b ∈ utf8LossyBytes slot, b < 128 := by
            rw [hdecomp]
            intro b hb
            rcases List.mem_append.mp hb with hk | hr
            · exact hASC b hk
            · have := List.eq_of_mem_replicate hr
              omega
          have hid := utf8Lossy_ascii slot hascii
          rw [hid] at hdecomp
          have hlen := congrArg List.length hdecomp
          simp only [List.length_append, List.length_replicate, h1] at hlen
          omega
        · exact absurd hcontra (by simp)
    · exact absurd hcontra (by simp)

/-- Witness for C5 as amended: at `K = 2` the three-byte ASCII key
`[97, 97, 97]` is truncated to `[97, 97]` in the index, and its lookup in
the concrete long-key table cannot return a stored entry. -/
theorem C5_long_key_lookup_witness :
    padSlot 2 [97, 97, 97] = [97, 97] ∧
    sstableGet decNat 2 8 tblLongKeys [97, 97, 97] ≠ .ok (some (some 7)) := by
  have h := C5_long_key_lookup decNat 2 8 tblLongKeys [97, 97, 97]
    (by decide) (by decide)
  exact ⟨h.1, h.2.1 (some 7)⟩

/-! ## C3: WAL replay and truncated tails -/

theorem decodeStr_encode (k : Key) (rest : List Nat) :
    decodeStr (encodeStr k ++ rest) = some (k, rest) := by
  simp only [encodeStr, List.cons_append, decodeStr]
  rw [if_pos (by simp)]
  rw [List.take_left, List.drop_left]

theorem decodeOp_encode (op : LogOperation Unit) (rest : List Nat) :
    decodeOp (encodeOp op ++ rest) = .ok op rest := by
  cases op with
  | insert r =>
    obtain ⟨k, u⟩ := r
    cases u
    simp [encodeOp, decodeOp, decodeStr_encode]
  | delete k =>
    simp [encodeOp, decodeOp, decodeStr_encode]

theorem length_le_encodeOps (ops : List (LogOperation Unit)) :
    ops.length ≤ (encodeOps ops).length := by
  induction ops with
  | nil => simp [encodeOps]
  | cons op ops ih =>
    simp only [encodeOps, List.map_cons, List.flatten_cons,
      List.length_append, List.length_cons] at *
    have h1 : 1 ≤ (encodeOp op).length := by
      cases op <;> simp [encodeOp, encodeStr]
    omega

theorem buildFromAux_replay (ops : List (LogOperation Unit)) :
    ∀ (gas : Nat) (tail : List Nat) (tree : MemMap Unit),
      ops.length < gas → decodeOp tail = .unexpectedEnd →
      buildFromAux gas (encodeOps ops ++ tail) tree =
        .ok (ops.foldl
          (fun tr op =>
            match op with
            | .insert r => mapUpsert tr r.1 (some r.2)
            | .delete k => mapUpsert tr k none)
          tree) := by
  induction ops with
  | nil =>
    intro gas tail tree hgas htail
    cases gas with
    | zero => omega
    | succ g =>
      simp only [encodeOps, List.map_nil, List.flatten_nil, List.nil_append,
        List.foldl_nil]
      simp [buildFromAux, nextOp, htail]
  | cons op ops ih =>
    intro gas tail tree hgas htail
    cases gas with
    | zero => omega
    | succ g =>
      have hstream : encodeOps (op :: ops) ++ tail =
          encodeOp op ++ (encodeOps ops ++ tail) := by
        simp [encodeOps, List.append_assoc]
      rw [hstream]
      have hdec := decodeOp_encode op (encodeOps ops ++ tail)
      simp only [buildFromAux, nextOp, hdec, List.foldl_cons]
      cases op with
      | insert r =>
        exact ih g tail _ (by simpa using Nat.lt_of_succ_lt_succ hgas) htail
      | delete k =>
        exact ih g tail _ (by simpa using Nat.lt_of_succ_lt_succ hgas) htail

/-- Claim C3, counterexample. The claim: a truncated mid-record tail during WAL
replay is reported as a fatal corruption error, never silently skipped. At
the concrete input — one complete `Insert` record `[0, 1, 107]` followed by
the truncated tail `[0]` (an `Insert` tag with its record bytes missing,
i.e. some bytes of a record present but not enough to decode it) — replay
succeeds, returning the map of the complete record; no error is reported. -/
theorem C3_truncated_tail_counterexample :
    decodeOp [0] = .unexpectedEnd ∧
    buildFrom [0, 1, 107, 0] = .ok [([107], some ())] := by
  constructor
  · rfl
  · rfl

/-- Claim C3, as amended. During WAL replay on open, a truncated mid-record
tail is treated exactly like a clean end-of-stream: the codec reports a
single unexpected-end for both, `next_op` maps it to `Ok(None)`, and replay
terminates successfully with the map built from the preceding complete
records — the tail is silently dropped, not reported. Only decode failures
other than unexpected-end (e.g. an invalid operation tag) are fatal. -/
theorem C3_replay_swallows_truncated_tail (ops : List (LogOperation Unit))
    (tail : List Nat) (htail : decodeOp tail = .unexpectedEnd) :
    buildFrom (encodeOps ops ++ tail) = .ok (applyOps ops) ∧
    (∀ s, decodeOp s = .otherError → nextOp s = .error 0) := by
  constructor
  · have hlen : ops.length < (encodeOps ops ++ tail).length + 1 := by
      have := length_le_encodeOps ops
      simp only [List.length_append]
      omega
    exact buildFromAux_replay ops _ tail [] hlen htail
  · intro s hs
    simp [nextOp, hs]

/-- Witness for C3 as amended: a WAL holding one complete `Delete` record
followed by the truncated tail `[1]` (a `Delete` tag with its key missing)
replays to the tombstone map with no error, while an invalid-tag stream
`[2]` is fatal. -/
theorem C3_replay_swallows_truncated_tail_witness :
    buildFrom [1, 1, 107, 1] = .ok [([107], none)] ∧
    nextOp [2] = .error 0 := by
  have h := C3_replay_swallows_truncated_tail
    [LogOperation.delete [107]] [1] (by rfl)
  exact ⟨h.1, h.2 [2] (by rfl)⟩

/-! ## C1: the compactor against the reference merge

### The byte-lexicographic key order -/

theorem keyLt_irrefl (k : Key) : keyLt k k = false := by
  induction k with
  | nil => rfl
  | cons a as ih => simp [keyLt, ih]

theorem keyLt_trans {a b c : Key} (h1 : keyLt a b = true)
    (h2 : keyLt b c = true) : keyLt a c = true := by
  induction a generalizing b c with
  | nil =>
    cases b with
    | nil => simp [keyLt] at h1
    | cons y ys =>
      cases c with
      | nil => simp [keyLt] at h2
      | cons z zs => simp [keyLt]
  | cons x xs ih =>
    cases b with
    | nil => simp [keyLt] at h1
    | cons y ys =>
      cases c with
      | nil => simp [keyLt] at h2
      | cons z zs =>
        simp only [keyLt, Bool.or_eq_true, Bool.and_eq_true,
          decide_eq_true_eq] at h1 h2 ⊢
        rcases h1 with h1 | ⟨he1, h1'⟩
        · rcases h2 with h2 | ⟨he2, _⟩
          · exact Or.inl (h1.trans h2)
          · exact Or.inl (he2 ▸ h1)
        · rcases h2 with h2 | ⟨he2, h2'⟩
          · exact Or.inl (he1 ▸ h2)
          · exact Or.inr ⟨he1.trans he2, ih h1' h2'⟩

theorem keyLt_total (a b : Key) :
    keyLt a b = true ∨ a = b ∨ keyLt b a = true := by
  induction a generalizing b with
  | nil =>
    cases b with
    | nil => exact Or.inr (Or.inl rfl)
    | cons y ys => exact Or.inl (by simp [keyLt])
  | cons x xs ih =>
    cases b with
    | nil => exact Or.inr (Or.inr (by simp [keyLt]))
    | cons y ys =>
      rcases Nat.lt_trichotomy x y with hxy | hxy | hxy
      · exact Or.inl (by simp [keyLt, hxy])
      · subst hxy
        rcases ih ys with h | h | h
        · exact Or.inl (by simp [keyLt, h])
        · exact Or.inr (Or.inl (by rw [h]))
        · exact Or.inr (Or.inr (by simp [keyLt, h]))
      · exact Or.inr (Or.inr (by simp [keyLt, hxy]))

theorem keyLt_asymm {a b : Key} (h : keyLt a b = true) :
    keyLt b a = false := by
  by_contra hc
  have hba : keyLt b a = true := by
    cases hb : keyLt b a
    · exact absurd hb hc
    · rfl
  have := keyLt_trans h hba
  rw [keyLt_irrefl] at this
  exact Bool.noConfusion this

theorem keyLt_ne {a b : Key} (h : keyLt a b = true) : a ≠ b := by
  intro hab
  subst hab
  rw [keyLt_irrefl] at h
  exact Bool.noConfusion h

/-! ### The heap-entry order -/

theorem entryLe_total (a b : HeapEntry α) :
    entryLe a b = true ∨ entryLe b a = true := by
  simp only [entryLe, Bool.or_eq_true, Bool.and_eq_true, decide_eq_true_eq]
  rcases keyLt_total a.key b.key with h | h | h
  · exact Or.inl (Or.inl h)
  · rcases Nat.le_total a.reader b.reader with hr | hr
    · exact Or.inl (Or.inr ⟨h, hr⟩)
    · exact Or.inr (Or.inr ⟨h.symm, hr⟩)
  · exact Or.inr (Or.inl h)

theorem entryLe_trans {a b c : HeapEntry α} (h1 : entryLe a b = true)
    (h2 : entryLe b c = true) : entryLe a c = true := by
  simp only [entryLe, Bool.or_eq_true, Bool.and_eq_true,
    decide_eq_true_eq] at h1 h2 ⊢
  rcases h1 with h1 | ⟨he1, hr1⟩
  · rcases h2 with h2 | ⟨he2, _⟩
    · exact Or.inl (keyLt_trans h1 h2)
    · exact Or.inl (he2 ▸ h1)
  · rcases h2 with h2 | ⟨he2, hr2⟩
    · exact Or.inl (he1 ▸ h2)
    · exact Or.inr ⟨he1.trans he2, hr1.trans hr2⟩

/-! ### The sorted-list heap model -/

theorem heapPush_perm (h : List (HeapEntry α)) (e : HeapEntry α) :
    (heapPush h e).Perm (e :: h) := by
  induction h with
  | nil => exact List.Perm.refl _
  | cons x xs ih =>
    simp only [heapPush]
    split
    · exact List.Perm.refl _
    · exact (List.Perm.cons x ih).trans (List.Perm.swap e x xs)

theorem heapPush_sorted {h : List (HeapEntry α)}
    (hs : List.Pairwise entryLeP h) (e : HeapEntry α) :
    List.Pairwise entryLeP (heapPush h e) := by
  induction h with
  | nil => simp [heapPush, entryLeP]
  | cons x xs ih =>
    rcases List.pairwise_cons.mp hs with ⟨hx, hxs⟩
    simp only [heapPush]
    split
    · rename_i hle
      refine List.pairwise_cons.mpr ⟨?_, hs⟩
      intro b hb
      rcases List.mem_cons.mp hb with rfl | hb'
      · exact hle
      · exact entryLe_trans hle (hx b hb')
    · rename_i hnle
      have hxe : entryLe x e = true := by
        rcases entryLe_total e x with hh | hh
        · exact absurd hh hnle
        · exact hh
      refine List.pairwise_cons.mpr ⟨?_, ih hxs⟩
      intro b hb
      have hb' : b ∈ e :: xs := (heapPush_perm xs e).mem_iff.mp hb
      rcases List.mem_cons.mp hb' with rfl | hb''
      · exact hxe
      · exact hx b hb''

theorem foldl_heapPush_perm (l h : List (HeapEntry α)) :
    (l.foldl heapPush h).Perm (l ++ h) := by
  induction l generalizing h with
  | nil => simp
  | cons x xs ih =>
    simp only [List.foldl_cons, List.cons_append]
    have h1 : (xs.foldl heapPush (heapPush h x)).Perm (xs ++ heapPush h x) :=
      ih _
    have h2 : (xs ++ heapPush h x).Perm (xs ++ x :: h) :=
      List.Perm.append_left xs (heapPush_perm h x)
    have h3 : (xs ++ x :: h).Perm (x :: (xs ++ h)) := List.perm_middle
    exact h1.trans (h2.trans h3)

theorem foldl_heapPush_sorted (l : List (HeapEntry α))
    {h : List (HeapEntry α)} (hs : List.Pairwise entryLeP h) :
    List.Pairwise entryLeP (l.foldl heapPush h) := by
  induction l generalizing h with
  | nil => exact hs
  | cons x xs ih => exact ih (heapPush_sorted hs x)

/-- On a sorted heap none of whose keys is below `ck`, the source's
pop-compare-push-back gathering (`takeWhile`/`dropWhile` on the model) is
exactly a partition by `key = ck`. -/
theorem sorted_span_eq_filter {h : List (HeapEntry α)}
    (hs : List.Pairwise entryLeP h) (ck : Key)
    (hmin : ∀ e ∈ h, keyLt e.key ck = false) :
    h.takeWhile (fun e => decide (e.key = ck)) =
      h.filter (fun e => decide (e.key = ck)) ∧
    h.dropWhile (fun e => decide (e.key = ck)) =
      h.filter (fun e => !decide (e.key = ck)) := by
  induction h with
  | nil => exact ⟨rfl, rfl⟩
  | cons x xs ih =>
    rcases List.pairwise_cons.mp hs with ⟨hx, hxs⟩
    by_cases hxk : x.key = ck
    · have hrec := ih hxs (fun e he => hmin e (List.mem_cons_of_mem _ he))
      simp [List.takeWhile_cons, List.dropWhile_cons, List.filter_cons,
        hxk, hrec.1, hrec.2]
    · have hnone : ∀ e ∈ x :: xs, ¬(e.key = ck) := by
        intro e he heq
        rcases List.mem_cons.mp he with rfl | he'
        · exact hxk heq
        · have hle := hx e he'
          simp only [entryLeP, entryLe, Bool.or_eq_true, Bool.and_eq_true,
            decide_eq_true_eq] at hle
          rcases hle with hlt | ⟨hk, _⟩
          · rw [heq] at hlt
            rw [hmin x (List.mem_cons_self x xs)] at hlt
            exact Bool.noConfusion hlt
          · exact hxk (hk.trans heq)
      constructor
      · rw [List.takeWhile_cons_of_neg (by simpa using hxk),
          List.filter_eq_nil_iff.mpr (by simpa using hnone)]
      · rw [List.dropWhile_cons_of_neg (by simpa using hxk),
          List.filter_eq_self.mpr (by simpa using hnone)]

/-- The head of a sorted non-empty heap has the minimal key. -/
theorem sorted_head_key_min {x : HeapEntry α} {xs : List (HeapEntry α)}
    (hs : List.Pairwise entryLeP (x :: xs)) :
    ∀ e ∈ x :: xs, keyLt e.key x.key = false := by
  intro e he
  rcases List.mem_cons.mp he with rfl | he'
  · exact keyLt_irrefl _
  · have hle := (List.pairwise_cons.mp hs).1 e he'
    simp only [entryLeP, entryLe, Bool.or_eq_true, Bool.and_eq_true,
      decide_eq_true_eq] at hle
    rcases hle with hlt | ⟨hk, _⟩
    · exact keyLt_asymm hlt
    · rw [hk, keyLt_irrefl]

/-! ### `max_by_key` and the occurrence list -/

theorem maxByReader_spec {l : List (HeapEntry α)} {m : HeapEntry α}
    (h : maxByReader l = some m) :
    m ∈ l ∧ ∀ e ∈ l, e.reader ≤ m.reader := by
  induction l generalizing m with
  | nil => exact Option.noConfusion h
  | cons x xs ih =>
    simp only [maxByReader] at h
    cases hxs : maxByReader xs with
    | none =>
      rw [hxs] at h
      injection h with h
      subst h
      cases xs with
      | nil =>
        exact ⟨List.mem_cons_self _ _, by
          intro e he
          rcases List.mem_cons.mp he with rfl | he'
          · exact Nat.le_refl _
          · exact absurd he' (List.not_mem_nil e)⟩
      | cons y ys => exact absurd hxs (by simp [maxByReader]; split <;> simp)
    | some m' =>
      rw [hxs] at h
      injection h with h
      rcases ih hxs with ⟨hm', hmax'⟩
      by_cases hlt : m'.reader < x.reader
      · rw [if_pos hlt] at h
        subst h
        refine ⟨List.mem_cons_self _ _, ?_⟩
        intro e he
        rcases List.mem_cons.mp he with rfl | he'
        · exact Nat.le_refl _
        · exact Nat.le_of_lt (Nat.lt_of_le_of_lt (hmax' e he') hlt)
      · rw [if_neg hlt] at h
        subst h
        refine ⟨List.mem_cons_of_mem x hm', ?_⟩
        intro e he
        rcases List.mem_cons.mp he with rfl | he'
        · exact Nat.le_of_not_lt hlt
        · exact hmax' e he'

theorem maxByReader_isSome {l : List (HeapEntry α)} (h : l ≠ []) :
    ∃ m, maxByReader l = some m := by
  cases l with
  | nil => exact absurd rfl h
  | cons x xs =>
    simp only [maxByReader]
    cases maxByReader xs with
    | none => exact ⟨x, rfl⟩
    | some m' => exact ⟨if m'.reader < x.reader then x else m', rfl⟩

theorem occList_reader_ge (k : Key) (ts : List (List (Key × Option α)))
    (i : Nat) : ∀ e ∈ occList k i ts, i ≤ e.reader := by
  induction ts generalizing i with
  | nil => intro e he; exact absurd he (List.not_mem_nil e)
  | cons t ts ih =>
    intro e he
    simp only [occList] at he
    rcases List.mem_append.mp he with he' | he'
    · cases hl : lookupIn t k with
      | none => rw [hl] at he'; exact absurd he' (List.not_mem_nil e)
      | some v =>
        rw [hl] at he'
        rcases List.mem_singleton.mp he' with rfl
        exact Nat.le_refl _
    · exact Nat.le_of_lt (Nat.lt_of_lt_of_le (Nat.lt_succ_self i)
        (ih (i + 1) e he'))

theorem occList_key (k : Key) (ts : List (List (Key × Option α)))
    (i : Nat) : ∀ e ∈ occList k i ts, e.key = k := by
  induction ts generalizing i with
  | nil => intro e he; exact absurd he (List.not_mem_nil e)
  | cons t ts ih =>
    intro e he
    simp only [occList] at he
    rcases List.mem_append.mp he with he' | he'
    · cases hl : lookupIn t k with
      | none => rw [hl] at he'; exact absurd he' (List.not_mem_nil e)
      | some v =>
        rw [hl] at he'
        rcases List.mem_singleton.mp he' with rfl
        rfl
    · exact ih (i + 1) e he'

theorem occList_eq_nil_iff (k : Key) (ts : List (List (Key × Option α)))
    (i : Nat) :
    occList k i ts = [] ↔ ts.filterMap (fun t => lookupIn t k) = [] := by
  induction ts generalizing i with
  | nil => simp [occList]
  | cons t ts ih =>
    simp only [occList, List.filterMap_cons]
    cases hl : lookupIn t k with
    | none => simpa using ih (i + 1)
    | some v => simp

/-- The entry of maximal reader among the occurrences of `k` determines
`newestValue`: its value is the value in the newest input containing `k`. -/
theorem occList_max_newestValue (k : Key)
    (ts : List (List (Key × Option α))) (i : Nat) (m : HeapEntry α)
    (hm : m ∈ occList k i ts)
    (hmax : ∀ e ∈ occList k i ts, e.reader ≤ m.reader) :
    newestValue ts k = some m.value := by
  induction ts generalizing i with
  | nil => exact absurd hm (List.not_mem_nil m)
  | cons t ts ih =>
    simp only [occList] at hm hmax
    cases hl : lookupIn t k with
    | none =>
      rw [hl] at hm hmax
      simp only [List.nil_append] at hm hmax
      have := ih (i + 1) hm hmax
      simpa [newestValue, List.filterMap_cons, hl] using this
    | some v =>
      rw [hl] at hm hmax
      by_cases hnil : occList k (i + 1) ts = []
      · rw [hnil] at hm
        simp only [List.append_nil] at hm
        rcases List.mem_singleton.mp hm with rfl
        have hfm : ts.filterMap (fun t => lookupIn t k) = [] :=
          (occList_eq_nil_iff k ts (i + 1)).mp hnil
        simp [newestValue, List.filterMap_cons, hl, hfm]
      · have hmem : m ∈ occList k (i + 1) ts := by
          rcases List.mem_append.mp hm with hm' | hm'
          · rcases List.mem_singleton.mp hm' with rfl
            obtain ⟨e, he⟩ := List.exists_mem_of_ne_nil _ hnil
            have h1 := hmax e (List.mem_append_right _ he)
            have h2 := occList_reader_ge k ts (i + 1) e he
            simp only at h1 h2
            omega
          · exact hm'
        have hmax' : ∀ e ∈ occList k (i + 1) ts, e.reader ≤ m.reader :=
          fun e he => hmax e (List.mem_append_right _ he)
        have := ih (i + 1) hmem hmax'
        have hne : ts.filterMap (fun t => lookupIn t k) ≠ [] := by
          intro hc
          exact hnil ((occList_eq_nil_iff k ts (i + 1)).mpr hc)
        simp only [newestValue, List.filterMap_cons, hl] at this ⊢
        obtain ⟨x, xs, hxs⟩ := List.exists_cons_of_ne_nil hne
        rw [hxs] at this ⊢
        rw [List.getLast?_cons_cons]
        exact this

/-! ### The union key list -/

theorem mem_insertKeySorted {k x : Key} {l : List Key} :
    x ∈ insertKeySorted k l ↔ x = k ∨ x ∈ l := by
  induction l with
  | nil => simp [insertKeySorted]
  | cons y ys ih =>
    simp only [insertKeySorted]
    split
    · simp [List.mem_cons]
    · split
      · rename_i hnlt hk
        subst hk
        simp only [List.mem_cons]
        tauto
      · simp only [List.mem_cons, ih]
        tauto

theorem insertKeySorted_sorted {k : Key} {l : List Key}
    (hs : List.Pairwise keyLtP l) :
    List.Pairwise keyLtP (insertKeySorted k l) := by
  induction l with
  | nil => simp [insertKeySorted, keyLtP]
  | cons y ys ih =>
    rcases List.pairwise_cons.mp hs with ⟨hy, hys⟩
    simp only [insertKeySorted]
    split
    · rename_i hky
      refine List.pairwise_cons.mpr ⟨?_, hs⟩
      intro b hb
      rcases List.mem_cons.mp hb with rfl | hb'
      · exact hky
      · exact keyLt_trans hky (hy b hb')
    · split
      · exact hs
      · rename_i hnlt hne
        have hyk : keyLtP y k := by
          rcases keyLt_total k y with h | h | h
          · exact absurd h hnlt
          · exact absurd h hne
          · exact h
        refine List.pairwise_cons.mpr ⟨?_, ih hys⟩
        intro b hb
        rcases mem_insertKeySorted.mp hb with rfl | hb'
        · exact hyk
        · exact hy b hb'

theorem unionKeys_sorted (ts : List (List (Key × Option α))) :
    List.Pairwise keyLtP (unionKeys ts) := by
  unfold unionKeys
  generalize (ts.map (·.map (·.1))).flatten = l
  induction l with
  | nil => simp
  | cons k l ih => exact insertKeySorted_sorted ih

theorem mem_unionKeys {ts : List (List (Key × Option α))} {k : Key} :
    k ∈ unionKeys ts ↔ ∃ t ∈ ts, ∃ v, (k, v) ∈ t := by
  unfold unionKeys
  have hfold : ∀ l : List Key, (k ∈ l.foldr insertKeySorted []) ↔ k ∈ l := by
    intro l
    induction l with
    | nil => simp
    | cons x xs ih => simp [List.foldr_cons, mem_insertKeySorted, ih]
  rw [hfold]
  simp only [List.mem_flatten, List.mem_map]
  constructor
  · rintro ⟨l, ⟨t, ht, rfl⟩, hk⟩
    rcases List.mem_map.mp hk with ⟨e, he, hek⟩
    refine ⟨t, ht, e.2, ?_⟩
    cases e
    cases hek
    exact he
  · rintro ⟨t, ht, v, hv⟩
    exact ⟨t.map (·.1), ⟨t, ht, rfl⟩, List.mem_map.mpr ⟨(k, v), hv, rfl⟩⟩

theorem unionKeys_nodup (ts : List (List (Key × Option α))) :
    (unionKeys ts).Nodup :=
  (unionKeys_sorted ts).imp (fun h => keyLt_ne h)

/-! ### Positions in a sorted key list -/

theorem sorted_getElem_lt {u : List Key} (hs : List.Pairwise keyLtP u)
    {m n : Nat} (hmn : m < n) (hn : n < u.length) :
    keyLtP (u.get ⟨m, Nat.lt_trans hmn hn⟩) (u.get ⟨n, hn⟩) :=
  List.pairwise_iff_get.mp hs ⟨m, Nat.lt_trans hmn hn⟩ ⟨n, hn⟩ hmn

/-- In a strictly sorted key list, the number of elements below the one at
position `m` is exactly `m`. -/
theorem sorted_countBelow {u : List Key} (hs : List.Pairwise keyLtP u)
    {m : Nat} (hm : m < u.length) :
    (u.filter (fun x => keyLt x (u.get ⟨m, hm⟩))).length = m := by
  set km := u.get ⟨m, hm⟩ with hkm
  have hsplit : u = u.take m ++ u.drop m := (List.take_append_drop m u).symm
  rw [hsplit, List.filter_append]
  have htake : (u.take m).filter (fun x => keyLt x km) = u.take m := by
    apply List.filter_eq_self.mpr
    intro x hx
    rcases List.mem_iff_getElem?.mp hx with ⟨j, hj⟩
    rw [List.getElem?_take] at hj
    split at hj
    · rename_i hjm
      have hju : j < u.length := Nat.lt_trans hjm hm
      have hx' : u.get ⟨j, hju⟩ = x := by
        rw [← List.get?_eq_getElem?] at hj
        exact (List.get?_eq_some.mp hj).choose_spec.symm ▸ rfl
      rw [← hx']
      exact sorted_getElem_lt hs hjm hm
    · exact Option.noConfusion hj
  have hdrop : (u.drop m).filter (fun x => keyLt x km) = [] := by
    apply List.filter_eq_nil_iff.mpr
    intro x hx
    rcases List.mem_iff_getElem?.mp hx with ⟨j, hj⟩
    rw [List.getElem?_drop] at hj
    have hju : m + j < u.length := by
      by_contra hcon
      rw [List.getElem?_eq_none (Nat.le_of_not_lt hcon)] at hj
      exact Option.noConfusion hj
    have hx' : u.get ⟨m + j, hju⟩ = x := by
      rw [← List.get?_eq_getElem?] at hj
      exact (List.get?_eq_some.mp hj).choose_spec.symm ▸ rfl
    rcases Nat.eq_or_lt_of_le (Nat.le_add_right m j) with hmj | hmj
    · rw [← hx']
      have : (⟨m + j, hju⟩ : Fin u.length) = ⟨m, hm⟩ := by
        refine Fin.ext ?_
        show m + j = m
        omega
      rw [this, hkm, keyLt_irrefl]
      simp
    · have hlt := sorted_getElem_lt hs hmj hju
      rw [hx'] at hlt
      rw [← hkm] at hlt
      rw [keyLt_asymm hlt]
      simp
  rw [htake, hdrop, List.append_nil, List.length_take]
  omega

theorem mem_take_of_sorted {u : List Key} (hs : List.Pairwise keyLtP u)
    {r : Nat} {k : Key} (hk : k ∈ u.take r) :
    ∃ m, ∃ hm : m < u.length, m < r ∧ u.get ⟨m, hm⟩ = k := by
  rcases List.mem_iff_getElem?.mp hk with ⟨j, hj⟩
  rw [List.getElem?_take] at hj
  split at hj
  · rename_i hjr
    have hju : j < u.length := by
      by_contra hcon
      rw [List.getElem?_eq_none (Nat.le_of_not_lt hcon)] at hj
      exact Option.noConfusion hj
    refine ⟨j, hju, hjr, ?_⟩
    rw [← List.get?_eq_getElem?] at hj
    exact ((List.get?_eq_some.mp hj).choose_spec.symm ▸ rfl)
  · exact Option.noConfusion hj

/-! ### The counting lemma -/

/-- In a strictly sorted input all of whose keys belong to the sorted key
list `u`, the entry at stream index `j` has at least `j` elements of `u`
strictly below its key. -/
theorem strincr_index_le_countBelow {t : List (Key × Option α)}
    (hst : StrIncrKeys t) {u : List Key} {j : Nat} {k : Key} {v : Option α}
    (hj : t.get? j = some (k, v)) (hsub : ∀ e ∈ t, e.1 ∈ u) :
    j ≤ (u.filter (fun x => keyLt x k)).length := by
  have hjlen : j < t.length := by
    rw [List.get?_eq_getElem?] at hj
    by_contra hcon
    rw [List.getElem?_eq_none (Nat.le_of_not_lt hcon)] at hj
    exact Option.noConfusion hj
  set P := (t.take j).map (·.1) with hP
  have hPlen : P.length = j := by
    simp [hP, List.length_take]
    omega
  have hPnodup : P.Nodup := by
    have h1 : List.Pairwise (fun a b => keyLtP a.1 b.1) t := hst
    have h2 : List.Pairwise (fun a b => keyLtP a.1 b.1) (t.take j) :=
      h1.sublist (List.take_sublist j t)
    have h3 : List.Pairwise keyLtP P := by
      rw [hP, List.pairwise_map]
      exact h2
    exact h3.imp (fun h => keyLt_ne h)
  have hPsub : P ⊆ u.filter (fun x => keyLt x k) := by
    intro x hx
    rcases List.mem_map.mp hx with ⟨e, he, hex⟩
    rcases List.mem_iff_getElem?.mp he with ⟨m, hm⟩
    rw [List.getElem?_take] at hm
    split at hm
    · rename_i hmj
      have hmt : m < t.length := Nat.lt_trans hmj hjlen
      rw [List.mem_filter]
      constructor
      · rw [← hex]
        exact hsub e (by
          rw [← List.get?_eq_getElem?] at hm
          exact List.get?_mem hm)
      · have hme : t.get ⟨m, hmt⟩ = e := by
          rw [← List.get?_eq_getElem?] at hm
          exact ((List.get?_eq_some.mp hm).choose_spec.symm ▸ rfl)
        have hjk : t.get ⟨j, hjlen⟩ = (k, v) := by
          exact ((List.get?_eq_some.mp hj).choose_spec.symm ▸ rfl)
        have hlt := List.pairwise_iff_get.mp hst ⟨m, hmt⟩ ⟨j, hjlen⟩ hmj
        rw [hme, hjk] at hlt
        rw [← hex]
        exact hlt
    · exact Option.noConfusion hm
  have := (List.subperm_of_subset hPnodup hPsub).length_le
  omega

/-! ### Heap-contents bookkeeping, one input at a time -/

theorem lookupIn_cons (e : Key × Option α) (t : List (Key × Option α))
    (k : Key) :
    lookupIn (e :: t) k = if e.1 = k then some e.2 else lookupIn t k := by
  simp only [lookupIn, List.find?_cons]
  by_cases h : e.1 = k
  · simp [h]
  · simp [h]

theorem tableSlice_start_gt (done : List Key) (c i : Nat)
    (t : List (Key × Option α)) : ∀ j, c < j → tableSlice done c i j t = [] := by
  induction t with
  | nil => intro j _; rfl
  | cons e t ih =>
    intro j hj
    simp only [tableSlice]
    rw [if_neg (by omega), List.nil_append]
    exact ih (j + 1) (by omega)

theorem tableSlice_succ_c (done : List Key) (c i : Nat)
    (t : List (Key × Option α)) :
    ∀ j, j ≤ c + 1 →
      tableSlice done (c + 1) i j t =
        tableSlice done c i j t ++
          (match t.get? (c + 1 - j) with
            | some e => if e.1 ∈ done then [] else [HeapEntry.mk e.1 i e.2]
            | none => []) := by
  induction t with
  | nil => intro j _; simp [tableSlice]
  | cons e t ih =>
    intro j hj
    by_cases hjc : j ≤ c
    · have hsub : c + 1 - j = (c - j) + 1 := by omega
      simp only [tableSlice, hsub, List.get?_cons_succ]
      rw [ih (j + 1) (by omega)]
      have hcj : c - j = c + 1 - (j + 1) := by omega
      rw [hcj]
      have hif : (if j ≤ c + 1 ∧ e.1 ∉ done then [HeapEntry.mk e.1 i e.2]
          else []) = (if j ≤ c ∧ e.1 ∉ done then [HeapEntry.mk e.1 i e.2]
          else []) := by
        by_cases he : e.1 ∈ done
        · rw [if_neg (by tauto), if_neg (by tauto)]
        · rw [if_pos ⟨by omega, he⟩, if_pos ⟨hjc, he⟩]
      rw [hif, List.append_assoc]
    · have hjeq : j = c + 1 := by omega
      subst hjeq
      simp only [tableSlice, Nat.sub_self, List.get?_cons_zero]
      rw [tableSlice_start_gt done (c + 1) i t (c + 1 + 1) (by omega),
        tableSlice_start_gt done c i t (c + 1 + 1) (by omega)]
      have hneg : ¬(c + 1 ≤ c ∧ e.1 ∉ done) := fun hcond => by omega
      rw [if_neg hneg]
      by_cases he : e.1 ∈ done
      · rw [if_neg (fun hcond => hcond.2 he)]
        simp [he]
      · rw [if_pos ⟨Nat.le_refl _, he⟩]
        simp [he]

theorem mem_tableSlice {done : List Key} {c i : Nat}
    {t : List (Key × Option α)} {x : HeapEntry α} :
    ∀ {j}, x ∈ tableSlice done c i j t →
      x.reader = i ∧ x.key ∉ done ∧ ∃ w, (x.key, w) ∈ t := by
  induction t with
  | nil => intro j hx; exact absurd hx (List.not_mem_nil x)
  | cons e t ih =>
    intro j hx
    simp only [tableSlice] at hx
    rcases List.mem_append.mp hx with hx' | hx'
    · split at hx'
      · rename_i hcond
        rcases List.mem_singleton.mp hx' with rfl
        exact ⟨rfl, hcond.2, e.2, by
          simp only
          exact List.mem_cons_self _ _⟩
      · exact absurd hx' (List.not_mem_nil x)
    · rcases ih hx' with ⟨hr, hd, w, hw⟩
      exact ⟨hr, hd, w, List.mem_cons_of_mem e hw⟩

theorem tableSlice_filter_key_nil {k : Key} {t : List (Key × Option α)}
    (hne : ∀ e ∈ t, e.1 ≠ k) (done : List Key) (c i : Nat) :
    ∀ j, (tableSlice done c i j t).filter
      (fun x => decide (x.key = k)) = [] := by
  induction t with
  | nil => intro j; rfl
  | cons e t ih =>
    intro j
    simp only [tableSlice, List.filter_append]
    rw [ih (fun e' he' => hne e' (List.mem_cons_of_mem e he')) (j + 1)]
    rw [List.append_nil]
    split
    · simp [hne e (List.mem_cons_self e t)]
    · rfl

/-- Filtering the slice by the current key yields exactly the occurrence of
that key in the input (when every occurrence index is within `c` and the key
is not yet emitted). -/
theorem tableSlice_filter_key {k : Key} {t : List (Key × Option α)}
    (hst : StrIncrKeys t) (done : List Key) (c i : Nat) :
    ∀ j, (∀ m e, t.get? m = some e → e.1 = k → j + m ≤ c ∧ k ∉ done) →
      (tableSlice done c i j t).filter (fun x => decide (x.key = k)) =
        (match lookupIn t k with
          | some v => [HeapEntry.mk k i v]
          | none => []) := by
  induction t with
  | nil => intro j _; rfl
  | cons e t ih =>
    intro j hocc
    rcases List.pairwise_cons.mp hst with ⟨he, ht⟩
    simp only [tableSlice, List.filter_append, lookupIn_cons]
    by_cases hek : e.1 = k
    · rcases hocc 0 e rfl hek with ⟨hjc, hkd⟩
      rw [if_pos ⟨by omega, hek ▸ hkd⟩]
      have htail : ∀ e' ∈ t, e'.1 ≠ k := by
        intro e' he' hk'
        exact keyLt_ne (he e' he') (hek.trans hk'.symm)
      rw [tableSlice_filter_key_nil htail done c i (j + 1), if_pos hek]
      simp [hek]
    · have hhead : List.filter (fun x => decide (x.key = k))
          (if j ≤ c ∧ e.1 ∉ done then [HeapEntry.mk e.1 i e.2] else []) =
          [] := by
        split
        · simp [hek]
        · rfl
      rw [hhead, List.nil_append, if_neg hek]
      refine ih ht (j + 1) ?_
      intro m e' hm hk'
      have h2 := hocc (m + 1) e' (by simpa using hm) hk'
      exact ⟨by omega, h2.2⟩

/-- Filtering the slice by "key differs from `k`" extends the emitted set by
`k`. -/
theorem tableSlice_filter_ne (k : Key) (done : List Key) (c i : Nat)
    (t : List (Key × Option α)) :
    ∀ j, (tableSlice done c i j t).filter (fun x => !decide (x.key = k)) =
      tableSlice (done ++ [k]) c i j t := by
  induction t with
  | nil => intro j; rfl
  | cons e t ih =>
    intro j
    simp only [tableSlice, List.filter_append, ih (j + 1)]
    congr 1
    by_cases hjc : j ≤ c
    · by_cases hek : e.1 = k
      · have h1 : (if j ≤ c ∧ e.1 ∉ done ++ [k]
            then [HeapEntry.mk e.1 i e.2] else []) = [] :=
          if_neg (fun hcond => hcond.2 (by simp [hek]))
        rw [h1]
        split
        · simp [hek]
        · rfl
      · by_cases hed : e.1 ∈ done
        · have h1 : (if j ≤ c ∧ e.1 ∉ done
              then [HeapEntry.mk e.1 i e.2] else []) = [] :=
            if_neg (fun hcond => hcond.2 hed)
          have h2 : (if j ≤ c ∧ e.1 ∉ done ++ [k]
              then [HeapEntry.mk e.1 i e.2] else []) = [] :=
            if_neg (fun hcond => hcond.2 (by simp [hed]))
          rw [h1, h2]
          rfl
        · have h1 : (if j ≤ c ∧ e.1 ∉ done
              then [HeapEntry.mk e.1 i e.2] else []) =
              [HeapEntry.mk e.1 i e.2] := if_pos ⟨hjc, hed⟩
          have h2 : (if j ≤ c ∧ e.1 ∉ done ++ [k]
              then [HeapEntry.mk e.1 i e.2] else []) =
              [HeapEntry.mk e.1 i e.2] :=
            if_pos ⟨hjc, by simp [hed, hek]⟩
          rw [h1, h2]
          simp [hek]
    · have h1 : (if j ≤ c ∧ e.1 ∉ done
          then [HeapEntry.mk e.1 i e.2] else []) = [] :=
        if_neg (fun hcond => hjc hcond.1)
      have h2 : (if j ≤ c ∧ e.1 ∉ done ++ [k]
          then [HeapEntry.mk e.1 i e.2] else []) = [] :=
        if_neg (fun hcond => hjc hcond.1)
      rw [h1, h2]
      rfl

/-- With every key of the input already emitted, the slice is empty. -/
theorem tableSlice_all_done {done : List Key} {t : List (Key × Option α)}
    (hall : ∀ e ∈ t, e.1 ∈ done) (c i : Nat) :
    ∀ j, tableSlice done c i j t = [] := by
  induction t with
  | nil => intro j; rfl
  | cons e t ih =>
    intro j
    simp only [tableSlice]
    rw [if_neg (by
      intro hcond
      exact hcond.2 (hall e (List.mem_cons_self e t))), List.nil_append]
    exact ih (fun e' he' => hall e' (List.mem_cons_of_mem e he')) (j + 1)

/-! ### Heap-contents bookkeeping, across the inputs -/

/-- Seeding: the first read round yields exactly the round-zero contents. -/
theorem readRound_eq_contents (ts : List (List (Key × Option α))) :
    ∀ i, readRound i ts = contentsAux [] 0 i ts := by
  induction ts with
  | nil => intro i; rfl
  | cons t ts ih =>
    intro i
    cases t with
    | nil =>
      show readRound (i + 1) ts = [] ++ contentsAux [] 0 (i + 1) ts
      rw [List.nil_append]
      exact ih (i + 1)
    | cons e t' =>
      simp only [readRound, contentsAux, tableSlice]
      rw [if_pos ⟨Nat.le_refl 0, List.not_mem_nil e.1⟩,
        tableSlice_start_gt [] 0 i t' 1 (by omega), ih (i + 1)]
      simp

/-- A read round over the inputs advanced past position `c`, appended to the
round-`c` contents, is (up to permutation) the post-read-phase contents. -/
theorem readRound_append_contents_perm (done : List Key) (c : Nat)
    (ts : List (List (Key × Option α)))
    (hpush : ∀ t ∈ ts, ∀ e, t.get? (c + 1) = some e → e.1 ∉ done) :
    ∀ i, (readRound i (ts.map (·.drop (c + 1))) ++
        contentsAux done c i ts).Perm (contentsAux done (c + 1) i ts) := by
  induction ts with
  | nil => intro i; simp [readRound, contentsAux]
  | cons t ts ih =>
    intro i
    have ihtail := ih (fun t' ht' e he =>
      hpush t' (List.mem_cons_of_mem t ht') e he) (i + 1)
    have hslice := tableSlice_succ_c done c i t 0 (by omega)
    rw [Nat.sub_zero] at hslice
    simp only [List.map_cons, contentsAux]
    set R := readRound (i + 1) (ts.map (·.drop (c + 1))) with hR
    set S := tableSlice done c i 0 t with hS
    set C := contentsAux done c (i + 1) ts with hC
    set C' := contentsAux done (c + 1) (i + 1) ts with hC'
    cases ht : t.drop (c + 1) with
    | nil =>
      have hget : t.get? (c + 1) = none := by
        rw [List.get?_eq_getElem?, ← List.head?_drop, ht]
        rfl
      have hslice2 : tableSlice done (c + 1) i 0 t = S := by
        rw [hslice, hget]
        simp
      have hread : readRound i
          (([] : List (Key × Option α)) :: ts.map (·.drop (c + 1))) = R :=
        rfl
      rw [hslice2, hread]
      have h1 : (R ++ (S ++ C)).Perm (S ++ (R ++ C)) := by
        rw [← List.append_assoc, ← List.append_assoc]
        exact List.Perm.append_right C List.perm_append_comm
      have h2 : (S ++ (R ++ C)).Perm (S ++ C') :=
        List.Perm.append_left S ihtail
      exact h1.trans h2
    | cons e rest =>
      have hget : t.get? (c + 1) = some e := by
        rw [List.get?_eq_getElem?, ← List.head?_drop, ht]
        rfl
      have hkey : e.1 ∉ done := hpush t (List.mem_cons_self t ts) e hget
      have hslice2 : tableSlice done (c + 1) i 0 t =
          S ++ [HeapEntry.mk e.1 i e.2] := by
        rw [hslice, hget]
        simp [hkey]
      have hread : readRound i
          ((e :: rest) :: ts.map (·.drop (c + 1))) =
          HeapEntry.mk e.1 i e.2 :: R := rfl
      rw [hslice2, hread]
      have h1 : ((HeapEntry.mk e.1 i e.2 :: R) ++ (S ++ C)).Perm
          (HeapEntry.mk e.1 i e.2 :: (S ++ (R ++ C))) := by
        rw [List.cons_append]
        refine List.Perm.cons _ ?_
        rw [← List.append_assoc, ← List.append_assoc]
        exact List.Perm.append_right C List.perm_append_comm
      have h2 : (HeapEntry.mk e.1 i e.2 :: (S ++ (R ++ C))).Perm
          (HeapEntry.mk e.1 i e.2 :: (S ++ C')) :=
        List.Perm.cons _ (List.Perm.append_left S ihtail)
      have h3 : (HeapEntry.mk e.1 i e.2 :: (S ++ C')).Perm
          ((S ++ [HeapEntry.mk e.1 i e.2]) ++ C') := by
        rw [List.append_assoc, List.singleton_append]
        exact List.perm_middle.symm
      exact (h1.trans h2).trans h3

/-- Filtering the mid-run contents by the current key yields exactly its
occurrence list. -/
theorem contentsAux_filter_key (k : Key) (done : List Key) (c : Nat)
    (ts : List (List (Key × Option α)))
    (hst : ∀ t ∈ ts, StrIncrKeys t)
    (hocc : ∀ t ∈ ts, ∀ m e, t.get? m = some e → e.1 = k →
      m ≤ c ∧ k ∉ done) :
    ∀ i, (contentsAux done c i ts).filter (fun x => decide (x.key = k)) =
      occList k i ts := by
  induction ts with
  | nil => intro i; rfl
  | cons t ts ih =>
    intro i
    simp only [contentsAux, occList, List.filter_append]
    rw [tableSlice_filter_key (hst t (List.mem_cons_self t ts)) done c i 0
      (by
        intro m e hm hk
        have := hocc t (List.mem_cons_self t ts) m e hm hk
        exact ⟨by omega, this.2⟩),
      ih (fun t' ht' => hst t' (List.mem_cons_of_mem t ht'))
        (fun t' ht' => hocc t' (List.mem_cons_of_mem t ht')) (i + 1)]

/-- Filtering the mid-run contents by "key differs from `k`" extends the
emitted set by `k`. -/
theorem contentsAux_filter_ne (k : Key) (done : List Key) (c : Nat)
    (ts : List (List (Key × Option α))) :
    ∀ i, (contentsAux done c i ts).filter (fun x => !decide (x.key = k)) =
      contentsAux (done ++ [k]) c i ts := by
  induction ts with
  | nil => intro i; rfl
  | cons t ts ih =>
    intro i
    simp only [contentsAux, List.filter_append]
    rw [tableSlice_filter_ne k done c i t 0, ih (i + 1)]

theorem mem_contentsAux {done : List Key} {c : Nat}
    {ts : List (List (Key × Option α))} {x : HeapEntry α} :
    ∀ {i}, x ∈ contentsAux done c i ts →
      x.key ∉ done ∧ ∃ t ∈ ts, ∃ w, (x.key, w) ∈ t := by
  induction ts with
  | nil => intro i hx; exact absurd hx (List.not_mem_nil x)
  | cons t ts ih =>
    intro i hx
    rcases List.mem_append.mp hx with hx' | hx'
    · rcases mem_tableSlice hx' with ⟨_, hd, w, hw⟩
      exact ⟨hd, t, List.mem_cons_self t ts, w, hw⟩
    · rcases ih hx' with ⟨hd, t', ht', w, hw⟩
      exact ⟨hd, t', List.mem_cons_of_mem t ht', w, hw⟩

theorem contentsAux_all_done {done : List Key}
    {ts : List (List (Key × Option α))}
    (hall : ∀ t ∈ ts, ∀ e ∈ t, e.1 ∈ done) (c : Nat) :
    ∀ i, contentsAux done c i ts = [] := by
  induction ts with
  | nil => intro i; rfl
  | cons t ts ih =>
    intro i
    simp only [contentsAux]
    rw [tableSlice_all_done (hall t (List.mem_cons_self t ts)) c i 0,
      ih (fun t' ht' => hall t' (List.mem_cons_of_mem t ht')) (i + 1)]
    rfl

theorem occList_ne_nil {k : Key} {ts : List (List (Key × Option α))}
    (h : ∃ t ∈ ts, ∃ v, (k, v) ∈ t) (i : Nat) : occList k i ts ≠ [] := by
  rw [Ne, occList_eq_nil_iff]
  obtain ⟨t, ht, v, hv⟩ := h
  intro hc
  have hnone := List.filterMap_eq_nil.mp hc t ht
  have hfind : t.find? (fun e => decide (e.1 = k)) = none := by
    cases hfind : t.find? (fun e => decide (e.1 = k)) with
    | none => rfl
    | some e =>
      rw [lookupIn, hfind] at hnone
      exact Option.noConfusion hnone
  have := List.find?_eq_none.mp hfind (k, v) hv
  simp at this

/-! ### Unfolding one merge round -/

theorem compactLoop_nil_eq (readers : List (List (Key × Option α)))
    (out : List (Key × Option α)) :
    compactLoop readers [] out = .ok out := by
  simp [compactLoop]

theorem compactLoop_cons_eq (readers : List (List (Key × Option α)))
    (top : HeapEntry α) (hrest : List (HeapEntry α))
    (out : List (Key × Option α)) (surv : HeapEntry α)
    (hsurv : maxByReader
      ((pushRound readers (top :: hrest)).2.takeWhile
        (fun e => decide (e.key = top.key))) = some surv) :
    compactLoop readers (top :: hrest) out =
      compactLoop (pushRound readers (top :: hrest)).1
        ((pushRound readers (top :: hrest)).2.dropWhile
          (fun e => decide (e.key = top.key)))
        (out ++ [(surv.key, surv.value)]) := by
  rw [compactLoop]
  split
  · rename_i heq
    rw [hsurv] at heq
    exact Option.noConfusion heq
  · rename_i surv' heq
    rw [hsurv] at heq
    injection heq with heq'
    subst heq'
    rfl

/-! ### The main loop invariant -/

/-- The merge loop, entered after `r` completed rounds with the heap holding
(a sorted arrangement of) the round-`r` contents, emits exactly the
newest-value entry of each remaining union key, in ascending order. -/
theorem compactLoop_run (ts : List (List (Key × Option α)))
    (hsort : ∀ t ∈ ts, StrIncrKeys t) :
    ∀ (d : List Key) (r : Nat) (heap : List (HeapEntry α))
      (out : List (Key × Option α)),
      d = (unionKeys ts).drop r →
      heap.Perm (heapContents ts r r) →
      List.Pairwise entryLeP heap →
      compactLoop (ts.map (·.drop (r + 1))) heap out =
        .ok (out ++ d.filterMap
          (fun k => (newestValue ts k).map ((k, ·)))) := by
  intro d
  induction d with
  | nil =>
    intro r heap out hd hperm hsorted
    have hrlen : (unionKeys ts).length ≤ r := by
      have hlen := congrArg List.length hd
      simp only [List.length_nil, List.length_drop] at hlen
      omega
    have htake : (unionKeys ts).take r = unionKeys ts :=
      List.take_of_length_le hrlen
    have hcontents : heapContents ts r r = [] := by
      unfold heapContents
      rw [htake]
      exact contentsAux_all_done (fun t ht e he =>
        mem_unionKeys.mpr ⟨t, ht, e.2, by cases e; exact he⟩) r 0
    have hnil : heap = [] := (hcontents ▸ hperm).eq_nil
    rw [hnil, compactLoop_nil_eq]
    simp
  | cons k d' ih =>
    intro r heap out hd hperm hsorted
    have husort : List.Pairwise keyLtP (unionKeys ts) := unionKeys_sorted ts
    have hrlen : r < (unionKeys ts).length := by
      by_contra hcon
      rw [List.drop_eq_nil_of_le (Nat.le_of_not_lt hcon)] at hd
      exact List.noConfusion hd
    have hget : (unionKeys ts).get ⟨r, hrlen⟩ = k := by
      have h0 := List.head?_drop (unionKeys ts) r
      rw [← hd] at h0
      rw [List.getElem?_eq_getElem hrlen] at h0
      simp only [List.head?_cons] at h0
      injection h0 with h0
      exact (h0.symm : _)
    have hd' : d' = (unionKeys ts).drop (r + 1) := by
      have h1 : ((unionKeys ts).drop r).drop 1 = (unionKeys ts).drop (r + 1) :=
        List.drop_drop 1 r (unionKeys ts)
      rw [← hd] at h1
      simpa using h1.symm ▸ rfl
    have hsubU : ∀ t ∈ ts, ∀ e ∈ t, e.1 ∈ unionKeys ts := fun t ht e he =>
      mem_unionKeys.mpr ⟨t, ht, e.2, by cases e; exact he⟩
    have hknot : k ∉ (unionKeys ts).take r := by
      intro hk
      rcases mem_take_of_sorted husort hk with ⟨m, hm, hmr, hmk⟩
      have hlt := sorted_getElem_lt husort hmr hrlen
      rw [hget] at hlt
      rw [hmk] at hlt
      rw [keyLtP, keyLt_irrefl] at hlt
      exact Bool.noConfusion hlt
    have hcount : ((unionKeys ts).filter (fun x => keyLt x k)).length = r := by
      have h0 := sorted_countBelow husort hrlen
      rw [hget] at h0
      exact h0
    have hoccidx : ∀ t ∈ ts, ∀ m e, t.get? m = some e → e.1 = k →
        m ≤ r := by
      intro t ht m e hm hek
      have h2 := strincr_index_le_countBelow (hsort t ht)
        (show t.get? m = some (e.1, e.2) by cases e; exact hm)
        (hsubU t ht)
      rw [hek] at h2
      omega
    have hpush : ∀ t ∈ ts, ∀ e, t.get? (r + 1) = some e →
        e.1 ∉ (unionKeys ts).take r := by
      intro t ht e hre hmem
      have h2 := strincr_index_le_countBelow (hsort t ht)
        (show t.get? (r + 1) = some (e.1, e.2) by cases e; exact hre)
        (hsubU t ht)
      rcases mem_take_of_sorted husort hmem with ⟨m, hm, hmr, hmk⟩
      have h3 : ((unionKeys ts).filter (fun x => keyLt x e.1)).length = m := by
        have h0 := sorted_countBelow husort hm
        rw [hmk] at h0
        exact h0
      omega
    have hdropge : ∀ x, x ∈ unionKeys ts → x ∉ (unionKeys ts).take r →
        keyLt x k = false := by
      intro x hxu hxtake
      have hxdrop : x ∈ (unionKeys ts).drop r := by
        rw [← List.take_append_drop r (unionKeys ts)] at hxu
        rcases List.mem_append.mp hxu with h | h
        · exact absurd h hxtake
        · exact h
      rw [← hd] at hxdrop
      rcases List.mem_cons.mp hxdrop with rfl | hxd
      · exact keyLt_irrefl _
      · have hdsort : List.Pairwise keyLtP ((unionKeys ts).drop r) :=
          husort.sublist (List.drop_sublist r (unionKeys ts))
        rw [← hd] at hdsort
        exact keyLt_asymm ((List.pairwise_cons.mp hdsort).1 x hxd)
    have hku : k ∈ unionKeys ts := by
      have : k ∈ (unionKeys ts).drop r := by
        rw [← hd]
        exact List.mem_cons_self k d'
      exact (List.drop_sublist r (unionKeys ts)).subset this
    have hocc_ex : ∃ t ∈ ts, ∃ v, (k, v) ∈ t := mem_unionKeys.mp hku
    have hoccne := occList_ne_nil hocc_ex 0
    have hfilter_rr : (heapContents ts r r).filter
        (fun x => decide (x.key = k)) = occList k 0 ts :=
      contentsAux_filter_key k ((unionKeys ts).take r) r ts hsort
        (fun t ht m e hm hek => ⟨hoccidx t ht m e hm hek, hknot⟩) 0
    have hheapne : heap ≠ [] := by
      intro hc
      rw [hc] at hperm
      have hcnil : heapContents ts r r = [] := hperm.symm.eq_nil
      rw [hcnil] at hfilter_rr
      exact hoccne hfilter_rr.symm
    obtain ⟨top, hrest, rfl⟩ : ∃ top hrest, heap = top :: hrest := by
      cases heap with
      | nil => exact absurd rfl hheapne
      | cons a l => exact ⟨a, l, rfl⟩
    have htopmem : top ∈ heapContents ts r r :=
      hperm.subset (List.mem_cons_self top hrest)
    rcases mem_contentsAux htopmem with ⟨htopnd, t', ht', w, hw⟩
    have htopu : top.key ∈ unionKeys ts := hsubU t' ht' (top.key, w) hw
    have htopge : keyLt top.key k = false := hdropge top.key htopu htopnd
    have hekx : ∃ ek ∈ heapContents ts r r, ek.key = k := by
      have hfne : (heapContents ts r r).filter
          (fun x => decide (x.key = k)) ≠ [] := by
        rw [hfilter_rr]
        exact hoccne
      obtain ⟨ek, hek⟩ := List.exists_mem_of_ne_nil _ hfne
      exact ⟨ek, (List.mem_filter.mp hek).1, by
        simpa using (List.mem_filter.mp hek).2⟩
    obtain ⟨ek, hekmem, hekkey⟩ := hekx
    have hmin := sorted_head_key_min hsorted ek (hperm.mem_iff.mpr hekmem)
    rw [hekkey] at hmin
    have htopk : top.key = k := by
      rcases keyLt_total top.key k with h | h | h
      · rw [h] at htopge
        exact Bool.noConfusion htopge
      · exact h
      · rw [h] at hmin
        exact Bool.noConfusion hmin
    -- the post-read-phase heap
    set rh2 := (pushRound (ts.map (·.drop (r + 1))) (top :: hrest)).2
      with hrh2
    have hrh2perm : rh2.Perm (heapContents ts (r + 1) r) := by
      have hp0 : rh2.Perm (readRound 0 (ts.map (·.drop (r + 1))) ++
          (top :: hrest)) := by
        rw [hrh2]
        exact foldl_heapPush_perm _ _
      have hp1 : (readRound 0 (ts.map (·.drop (r + 1))) ++
          (top :: hrest)).Perm (readRound 0 (ts.map (·.drop (r + 1))) ++
            heapContents ts r r) :=
        List.Perm.append_left _ hperm
      have hp2 := readRound_append_contents_perm
        ((unionKeys ts).take r) r ts hpush 0
      exact (hp0.trans hp1).trans hp2
    have hrh2sorted : List.Pairwise entryLeP rh2 :=
      foldl_heapPush_sorted _ hsorted
    have hrh2ge : ∀ e ∈ rh2, keyLt e.key k = false := by
      intro e he
      rcases mem_contentsAux (hrh2perm.subset he) with
        ⟨hnd, t'', ht'', w'', hw''⟩
      exact hdropge e.key (hsubU t'' ht'' (e.key, w'') hw'') hnd
    have hspan := sorted_span_eq_filter hrh2sorted k hrh2ge
    have hversions_perm : (rh2.takeWhile
        (fun e => decide (e.key = k))).Perm (occList k 0 ts) := by
      rw [hspan.1]
      have hpf := hrh2perm.filter (fun x => decide (x.key = k))
      rw [show (heapContents ts (r + 1) r).filter
          (fun x => decide (x.key = k)) = occList k 0 ts from
        contentsAux_filter_key k ((unionKeys ts).take r) (r + 1) ts hsort
          (fun t ht m e hm hek =>
            ⟨Nat.le_succ_of_le (hoccidx t ht m e hm hek), hknot⟩) 0] at hpf
      exact hpf
    have hversions_ne : rh2.takeWhile (fun e => decide (e.key = k)) ≠ [] := by
      intro hc
      rw [hc] at hversions_perm
      exact hoccne hversions_perm.symm.eq_nil
    obtain ⟨surv, hsurv⟩ := maxByReader_isSome hversions_ne
    rcases maxByReader_spec hsurv with ⟨hsmem, hsmax⟩
    have hsocc : surv ∈ occList k 0 ts := hversions_perm.subset hsmem
    have hsmax' : ∀ e ∈ occList k 0 ts, e.reader ≤ surv.reader :=
      fun e he => hsmax e (hversions_perm.mem_iff.mpr he)
    have hnewest : newestValue ts k = some surv.value :=
      occList_max_newestValue k ts 0 surv hsocc hsmax'
    have hskey : surv.key = k := occList_key k ts 0 surv hsocc
    have hheap'_perm : (rh2.dropWhile
        (fun e => decide (e.key = k))).Perm
          (heapContents ts (r + 1) (r + 1)) := by
      rw [hspan.2]
      have hpf := hrh2perm.filter (fun x => !decide (x.key = k))
      rw [show (heapContents ts (r + 1) r).filter
          (fun x => !decide (x.key = k)) =
          contentsAux ((unionKeys ts).take r ++ [k]) (r + 1) 0 ts from
        contentsAux_filter_ne k ((unionKeys ts).take r) (r + 1) ts 0] at hpf
      have htsucc : (unionKeys ts).take (r + 1) =
          (unionKeys ts).take r ++ [k] := by
        rw [List.take_succ, List.getElem?_eq_getElem hrlen]
        have : (unionKeys ts)[r] = k := hget
        rw [this]
        rfl
      rw [show heapContents ts (r + 1) (r + 1) =
        contentsAux ((unionKeys ts).take (r + 1)) (r + 1) 0 ts from rfl,
        htsucc]
      exact hpf
    have hheap'_sorted : List.Pairwise entryLeP
        (rh2.dropWhile (fun e => decide (e.key = k))) :=
      hrh2sorted.sublist (List.dropWhile_sublist _)
    have hsurv' : maxByReader
        ((pushRound (ts.map (·.drop (r + 1))) (top :: hrest)).2.takeWhile
          (fun e => decide (e.key = top.key))) = some surv := by
      simp only [htopk]
      exact hsurv
    rw [compactLoop_cons_eq _ top hrest out surv hsurv']
    simp only [htopk]
    have hreaders' : (pushRound (ts.map (·.drop (r + 1)))
        (top :: hrest)).1 = ts.map (·.drop (r + 1 + 1)) := by
      show (ts.map (·.drop (r + 1))).map (·.drop 1) =
        ts.map (·.drop (r + 1 + 1))
      rw [List.map_map]
      congr 1
      funext x
      show (x.drop (r + 1)).drop 1 = x.drop (r + 1 + 1)
      rw [List.drop_drop]
    rw [hreaders']
    rw [ih (r + 1) (rh2.dropWhile (fun e => decide (e.key = k)))
      (out ++ [(surv.key, surv.value)]) hd' hheap'_perm hheap'_sorted]
    rw [List.filterMap_cons]
    rw [hnewest]
    simp [hskey, List.append_assoc]

/-- `compact` computes the reference merge: on a non-empty list of
non-empty, strictly key-sorted inputs (what real SSTables are), the output
stream is exactly `mergeSpec`. -/
theorem compactModel_eq_mergeSpec (tables : List (List (Key × Option α)))
    (hne : tables ≠ []) (hsort : ∀ t ∈ tables, StrIncrKeys t)
    (hnonempty : ∀ t ∈ tables, t ≠ []) :
    compactModel tables = .ok (mergeSpec tables) := by
  have hperm0 : ((pushRound tables []).2).Perm (heapContents tables 0 0) := by
    have hp1 : ((pushRound tables []).2).Perm (readRound 0 tables ++ []) :=
      foldl_heapPush_perm _ _
    rw [List.append_nil, readRound_eq_contents tables 0] at hp1
    exact hp1
  have hsorted0 : List.Pairwise entryLeP ((pushRound tables []).2) :=
    foldl_heapPush_sorted _ List.Pairwise.nil
  have hne0 : ¬(((pushRound tables []).2).isEmpty = true) := by
    obtain ⟨t, rest, rfl⟩ : ∃ t rest, tables = t :: rest := by
      cases tables with
      | nil => exact absurd rfl hne
      | cons a l => exact ⟨a, l, rfl⟩
    obtain ⟨e, t', rfl⟩ : ∃ e t', t = e :: t' := by
      cases ht : t with
      | nil => exact absurd ht (hnonempty t (List.mem_cons_self _ _))
      | cons a l => exact ⟨a, l, rfl⟩
    have hlen : ((pushRound ((e :: t') :: rest) []).2).length =
        (readRound 0 ((e :: t') :: rest)).length := by
      show ((readRound 0 ((e :: t') :: rest)).foldl heapPush []).length = _
      rw [(foldl_heapPush_perm _ _).length_eq]
      simp
    have hrne : (readRound 0 ((e :: t') :: rest)).length ≠ 0 := by
      show (HeapEntry.mk e.1 0 e.2 :: readRound 1 rest).length ≠ 0
      simp
    rw [List.isEmpty_iff_length_eq_zero, hlen]
    exact hrne
  have hrun := compactLoop_run tables hsort (unionKeys tables) 0
    ((pushRound tables []).2) [] (List.drop_zero _).symm hperm0 hsorted0
  simp only [compactModel]
  rw [if_neg (by simpa [List.isEmpty_iff] using hne), if_neg hne0]
  show compactLoop (tables.map (·.drop (0 + 1))) ((pushRound tables []).2)
    [] = _
  rw [hrun]
  simp [mergeSpec]

/-- Claim C1, counterexample. The claim: compaction resolves each group to the
newest entry and, when the surviving value is a tombstone and the input set
includes the oldest SSTable in the database, drops the entry — emits
nothing. At the concrete input — compacting the database's single SSTable,
whose one entry is a tombstone, so the input set trivially includes the
oldest table — the compactor emits the tombstone entry rather than
nothing. -/
theorem C1_tombstone_emitted_counterexample :
    compactModel [[([97], (none : Option Nat))]] = .ok [([97], none)] ∧
    compactModel [[([97], (none : Option Nat))]] ≠ .ok [] := by
  have h := compactModel_eq_mergeSpec [[([97], (none : Option Nat))]]
    (by decide) (by decide) (by decide)
  rw [h]
  refine ⟨by decide, by decide⟩

/-- Claim C1, as amended. Compaction resolves each duplicate-key group to the
entry from the newest input (highest age rank) and always emits the
surviving entry into the output SSTable, tombstone included — no tombstone
is ever dropped, whether or not the input set includes the oldest SSTable:
on any non-empty list of non-empty, strictly key-sorted inputs ordered
oldest-first, the output stream is exactly the reference merge — every key
of the union, in ascending order, carrying its newest input's value. -/
theorem C1_compaction_is_newest_wins_merge
    (tables : List (List (Key × Option α))) (hne : tables ≠ [])
    (hsort : ∀ t ∈ tables, StrIncrKeys t)
    (hnonempty : ∀ t ∈ tables, t ≠ []) :
    compactModel tables = .ok (mergeSpec tables) :=
  compactModel_eq_mergeSpec tables hne hsort hnonempty

/-- Witness for C1 as amended: compacting an older table holding live
`[97]` and `[98]` with a newer table holding a tombstone for `[97]` emits
the tombstone (newest wins) and keeps `[98]`. -/
theorem C1_compaction_is_newest_wins_merge_witness :
    compactModel [[([97], some 1), ([98], some 2)],
      [([97], (none : Option Nat))]] =
      .ok [([97], none), ([98], some 2)] := by
  have h := C1_compaction_is_newest_wins_merge
    [[([97], some 1), ([98], some 2)], [([97], (none : Option Nat))]]
    (by decide) (by decide) (by decide)
  rw [h]
  decide

end SSTables
